import Mathlib

/-!
Verification of the raster alpha/relief processing pipeline of the Wonder.io
repository (background cutout, sticker borders, second-edge ring, bevel/relief
shading).  JavaScript numbers are modelled exactly: finite values as rationals
(`ℚ`), `NaN` as `none` in `Option ℚ`, and the chamfer distance values, which
are always of the form `a + b·√2`, as exact pairs `(a, b) : ℚ × ℚ` together
with a decidable order that is proved to agree with the real order.
-/

/-! ## JavaScript numeric coercions and parameter clamping

`tools/cutout_border_only.js` and the sticker/bevel scripts coerce their raw
CLI arguments with patterns like `+x || d` (NaN and 0 both fall back to the
default `d`) and `Math.max(lo, Math.min(hi, v))`.  `add_bevel.js` instead uses
`clamp(parseFloat(v), 0, 1)` where `Math.min`/`Math.max` propagate NaN.  A raw
argument is modelled as `Option ℚ` (`none` = NaN). -/

/-- JavaScript `+x || d` for a numeric/NaN value `x`: NaN and `0` are falsy and
fall back to the default `d`. -/
def jsOr (x : Option ℚ) (d : ℚ) : ℚ :=
  match x with
  | none => d
  | some q => if q = 0 then d else q

/-- JavaScript `Math.min(a, x)` with a non-NaN first argument: NaN propagates. -/
def jsMinOpt (a : ℚ) (x : Option ℚ) : Option ℚ :=
  x.map (fun q => min a q)

/-- JavaScript `Math.max(a, x)` with a non-NaN first argument: NaN propagates. -/
def jsMaxOpt (a : ℚ) (x : Option ℚ) : Option ℚ :=
  x.map (fun q => max a q)

/-- The `clamp(n, min, max) = Math.max(min, Math.min(max, n))` helper of
`tools/add_bevel.js`; NaN passes through both `Math.min` and `Math.max`. -/
def clampJS (n : Option ℚ) (lo hi : ℚ) : Option ℚ :=
  jsMaxOpt lo (jsMinOpt hi n)

/-- Effective tolerance of `cutoutBorderOnly`:
`tolerance = Math.max(0, Math.min(255, +tolerance || 220))`. -/
def effTolerance (raw : Option ℚ) : ℚ :=
  max 0 (min 255 (jsOr raw 220))

/-- Effective feather of `cutoutBorderOnly`:
`feather = Math.max(0, Math.min(5, +feather || 2))`. -/
def effFeather (raw : Option ℚ) : ℚ :=
  max 0 (min 5 (jsOr raw 2))

/-- Effective stroke width of `makeStickerBorder`:
`strokePx = Math.max(1, Math.min(500, +strokePx || 16))`. -/
def effStrokePx (raw : Option ℚ) : ℚ :=
  max 1 (min 500 (jsOr raw 16))

/-- Effective softness of `makeStickerBorder`:
`softness = Math.max(0.1, Math.min(5.0, +softness || 0.8))`. -/
def effSoftness (raw : Option ℚ) : ℚ :=
  max (1/10) (min 5 (jsOr raw (4/5)))

/-- Effective relief intensity of `add_bevel.js` `parseArgs`:
`intensity = clamp(parseFloat(a[++i] || "0.35"), 0, 1)`; the argument is the
`parseFloat` result (`none` when the string does not parse to a number). -/
def effIntensity (raw : Option ℚ) : Option ℚ :=
  clampJS raw 0 1

/-! ## Ring/band compositor of `tools/add_second_edge.js`

Lines 89–96: `inner = offsetPx`, `outer = offsetPx + edgePx`, and
`ringA[i] = mask[i] === 0 && d > inner && d <= outer ? 255 : 0`. -/

/-- Per-pixel ring alpha: `maskVal` is the original alpha mask value at the
pixel (1 = subject, 0 = background) and `d` its computed distance. -/
def ringAlphaPixel (maskVal : ℕ) (d offsetPx edgePx : ℚ) : ℕ :=
  let inner := offsetPx
  let outer := offsetPx + edgePx
  if maskVal = 0 ∧ inner < d ∧ d ≤ outer then 255 else 0

/-! ## Luminance mask and step 5 of `tools/cutout_border_only.js` -/

/-- Luminance used for white detection (line 45):
`0.299 * r + 0.587 * g + 0.114 * b`. -/
def luminance (r g b : ℚ) : ℚ :=
  299/1000 * r + 587/1000 * g + 114/1000 * b

/-- Near-white test (line 46): `luminance >= tolerance`.  The image is a map
from pixel index to its (r, g, b) byte triple. -/
def nearWhitePx (img : ℕ → ℕ × ℕ × ℕ) (tol : ℚ) (i : ℕ) : Bool :=
  decide (tol ≤ luminance (img i).1 (img i).2.1 (img i).2.2)

/-- Step 5 of `cutoutBorderOnly` (lines 112–118), per pixel: background pixels
get alpha 0; a non-background pixel whose alpha is exactly 0 is forced to 255;
any other non-background pixel keeps its alpha. -/
def cutoutStep5Alpha (bg : Bool) (srcAlpha : ℕ) : ℕ :=
  if bg then 0 else if srcAlpha = 0 then 255 else srcAlpha

/-! ## Exact arithmetic for chamfer distances

Every value the two-pass chamfer transform manipulates has the form
`a + b·√2` with `a`, `b` in the base ring (weights are `1` and `Math.SQRT2`,
the initialization is a sentinel from the base ring).  We represent such a
value as the pair `(a, b)` over a generic linearly ordered ring `γ` (`ℤ` for
kernel-evaluable concrete runs, `ℚ` for the general pipeline definitions) and
decide the order exactly; `r2nn_iff_of` proves that the decision agrees with
the order of the corresponding real numbers, so `Math.min` and `<=` on these
values model the source's float comparisons faithfully. -/

/-- Decides `0 ≤ x + y·√2` using only ring arithmetic and comparisons. -/
def r2nn {γ : Type} [LinearOrderedRing γ] (x y : γ) : Bool :=
  if 0 ≤ x then
    (if 0 ≤ y then true else decide (2 * y * y ≤ x * x))
  else
    (if 0 ≤ y then decide (x * x ≤ 2 * y * y) else false)

/-- Decides `a + b·√2 ≤ c + d·√2`. -/
def rle {γ : Type} [LinearOrderedRing γ] (p q : γ × γ) : Bool :=
  r2nn (q.1 - p.1) (q.2 - p.2)

/-- `Math.min` on two chamfer values. -/
def rmin {γ : Type} [LinearOrderedRing γ] (p q : γ × γ) : γ × γ :=
  if rle p q then p else q

/-- Real value denoted by a rational pair. -/
noncomputable def r2valQ (p : ℚ × ℚ) : ℝ :=
  (p.1 : ℝ) + (p.2 : ℝ) * Real.sqrt 2

/-- Real value denoted by an integer pair. -/
noncomputable def r2valZ (p : ℤ × ℤ) : ℝ :=
  (p.1 : ℝ) + (p.2 : ℝ) * Real.sqrt 2

/-! ## Two-pass chamfer distance transform

Embedding of the distance-field part of `createRasterSmoothBorder`
(`make_sticker_border` script, lines 1077–1130): the field is initialized with
the sentinel `strokePx * 2`, mask pixels are set to distance 0, a forward pass
sweeps the interior rows top-to-bottom / left-to-right taking the minimum of
the current value and the {up-left+√2, up+1, up-right+√2, left+1} neighbors
(in the order of the source's `Math.min(current, ...neighbors)`), and a
backward pass sweeps bottom-to-top / right-to-left with
{right+1, down-left+√2, down+1, down-right+√2}. -/

/-- Distance-field lookup (`distanceField[idx]`). -/
def dfGet {γ : Type} [LinearOrderedRing γ] (df : List (γ × γ)) (i : ℕ) : γ × γ :=
  df.getD i (0, 0)

/-- Add the axis-aligned edge weight `1`. -/
def addOne {γ : Type} [LinearOrderedRing γ] (p : γ × γ) : γ × γ :=
  (p.1 + 1, p.2)

/-- Add the diagonal edge weight `Math.SQRT2`. -/
def addSqrt2 {γ : Type} [LinearOrderedRing γ] (p : γ × γ) : γ × γ :=
  (p.1, p.2 + 1)

/-- Initial field: seed pixels 0, everything else the sentinel `strokePx * 2`. -/
def initDF {γ : Type} [LinearOrderedRing γ] (W H : ℕ) (strokePx : γ) (mask : ℕ → Bool) :
    List (γ × γ) :=
  (List.range (W * H)).map (fun i => if mask i then ((0 : γ), (0 : γ)) else (strokePx * 2, 0))

/-- One forward-pass update at `(y, x)`. -/
def fwdUpdate {γ : Type} [LinearOrderedRing γ] (W : ℕ) (df : List (γ × γ)) (yx : ℕ × ℕ) :
    List (γ × γ) :=
  let y := yx.1
  let x := yx.2
  let i := y * W + x
  let v := rmin (rmin (rmin (rmin (dfGet df i)
      (addSqrt2 (dfGet df ((y - 1) * W + (x - 1)))))
      (addOne (dfGet df ((y - 1) * W + x))))
      (addSqrt2 (dfGet df ((y - 1) * W + (x + 1)))))
      (addOne (dfGet df (y * W + (x - 1))))
  df.set i v

/-- One backward-pass update at `(y, x)`. -/
def bwdUpdate {γ : Type} [LinearOrderedRing γ] (W : ℕ) (df : List (γ × γ)) (yx : ℕ × ℕ) :
    List (γ × γ) :=
  let y := yx.1
  let x := yx.2
  let i := y * W + x
  let v := rmin (rmin (rmin (rmin (dfGet df i)
      (addOne (dfGet df (y * W + (x + 1)))))
      (addSqrt2 (dfGet df ((y + 1) * W + (x - 1)))))
      (addOne (dfGet df ((y + 1) * W + x))))
      (addSqrt2 (dfGet df ((y + 1) * W + (x + 1))))
  df.set i v

/-- Forward scan order: `y = 1 .. H-2`, `x = 1 .. W-2`, row-major. -/
def fwdIndices (W H : ℕ) : List (ℕ × ℕ) :=
  (List.range (H - 2)).flatMap (fun y => (List.range (W - 2)).map (fun x => (y + 1, x + 1)))

/-- Backward scan order: `y = H-2 .. 1`, `x = W-2 .. 1`. -/
def bwdIndices (W H : ℕ) : List (ℕ × ℕ) :=
  ((List.range (H - 2)).reverse).flatMap
    (fun y => ((List.range (W - 2)).reverse).map (fun x => (y + 1, x + 1)))

/-- Both chamfer passes over the initialized field. -/
def chamferDistanceField {γ : Type} [LinearOrderedRing γ] (W H : ℕ) (strokePx : γ)
    (mask : ℕ → Bool) : List (γ × γ) :=
  (bwdIndices W H).foldl (bwdUpdate W) ((fwdIndices W H).foldl (fwdUpdate W) (initDF W H strokePx mask))

/-- The field after the forward pass only (rational coefficients). -/
def fwdPass (W H : ℕ) (s : ℚ) (mask : ℕ → Bool) : List (ℚ × ℚ) :=
  (fwdIndices W H).foldl (fwdUpdate W) (initDF W H s mask)

/-- Real value held at index `i` of a rational-pair field. -/
noncomputable def dfVal (df : List (ℚ × ℚ)) (i : ℕ) : ℝ :=
  r2valQ (dfGet df i)

/-- 11×11 canvas with a single seed pixel at its center `(5, 5)` (index 60),
`strokePx = 16` (sentinel 32); every arising value is in `ℤ + ℤ·√2`, so the
run is performed with integer pair coefficients. -/
def df11 : List (ℤ × ℤ) :=
  chamferDistanceField 11 11 16 (fun i => i == 60)

/-- The value of `df11`, row by row. -/
def df11Expected : List (ℤ × ℤ) := [
    (32, 0), (32, 0), (32, 0), (32, 0), (32, 0), (32, 0), (32, 0), (32, 0), (32, 0), (32, 0), (32, 0),
    (32, 0), (0, 4), (1, 3), (2, 2), (3, 1), (4, 0), (3, 1), (2, 2), (1, 3), (0, 4), (32, 0),
    (32, 0), (1, 3), (0, 3), (1, 2), (2, 1), (3, 0), (2, 1), (1, 2), (0, 3), (1, 3), (32, 0),
    (32, 0), (2, 2), (1, 2), (0, 2), (1, 1), (2, 0), (1, 1), (0, 2), (1, 2), (2, 2), (32, 0),
    (32, 0), (3, 1), (2, 1), (1, 1), (0, 1), (1, 0), (0, 1), (1, 1), (2, 1), (3, 1), (32, 0),
    (32, 0), (4, 0), (3, 0), (2, 0), (1, 0), (0, 0), (1, 0), (2, 0), (3, 0), (4, 0), (32, 0),
    (32, 0), (3, 1), (2, 1), (1, 1), (0, 1), (1, 0), (0, 1), (1, 1), (2, 1), (3, 1), (32, 0),
    (32, 0), (2, 2), (1, 2), (0, 2), (1, 1), (2, 0), (1, 1), (0, 2), (1, 2), (2, 2), (32, 0),
    (32, 0), (1, 3), (0, 3), (1, 2), (2, 1), (3, 0), (2, 1), (1, 2), (0, 3), (1, 3), (32, 0),
    (32, 0), (0, 4), (1, 3), (2, 2), (3, 1), (4, 0), (3, 1), (2, 2), (1, 3), (0, 4), (32, 0),
    (32, 0), (32, 0), (32, 0), (32, 0), (32, 0), (32, 0), (32, 0), (32, 0), (32, 0), (32, 0), (32, 0)]

/-! ## Border flood fill of `tools/cutout_border_only.js` (lines 49–77)

The worklist state is the pair of the `bg` mark set and the queue `q`.
`pushIf` marks and enqueues an in-range, near-white, unmarked pixel.  Seeding
pushes every border index (top and bottom rows, then left and right columns);
the loop repeatedly removes one index — `q.pop()` takes the last element
(LIFO); a `q.shift()` variant would take the first (FIFO) — and pushes its
4-connected neighbors, guarded exactly like the source (`x > 0`, `x < W-1`,
`y > 0`, `y < H-1`).  The loop is modelled with explicit fuel; `floodFuel` is
proved sufficient for the queue to drain. -/

/-- Worklist state: the set of marked (`bg`) pixels and the pending queue. -/
structure FState where
  marked : Finset ℕ
  q : List ℕ

/-- The `pushIf` closure (lines 52–57): bounds check, near-white check,
not-yet-marked check; marks and enqueues. -/
def floodPushIf (WH : ℕ) (ok : ℕ → Bool) (s : FState) (i : ℕ) : FState :=
  if i < WH ∧ ok i = true ∧ i ∉ s.marked then ⟨insert i s.marked, s.q ++ [i]⟩ else s

/-- Border seed indices in source order (lines 60–67): for each `x` the top and
bottom row pixels, then for each `y` the left and right column pixels. -/
def floodSeeds (W H : ℕ) : List ℕ :=
  (List.range W).flatMap (fun x => [x, (H - 1) * W + x]) ++
    (List.range H).flatMap (fun y => [y * W, y * W + (W - 1)])

/-- State after the seeding loops. -/
def floodInit (W H : ℕ) (ok : ℕ → Bool) : FState :=
  (floodSeeds W H).foldl (floodPushIf (W * H) ok) ⟨∅, []⟩

/-- 4-connected neighbor candidates of `i` in source order (lines 72–76). -/
def floodNbrs (W H : ℕ) (i : ℕ) : List ℕ :=
  let y := i / W
  let x := i % W
  (if 0 < x then [i - 1] else []) ++ (if x < W - 1 then [i + 1] else []) ++
    (if 0 < y then [i - W] else []) ++ (if y < H - 1 then [i + W] else [])

/-- One iteration of the `while (q.length)` loop, parameterized by the worklist
discipline `sel` (which element of a non-empty queue is removed, and the
remaining queue). -/
def floodStep (W H : ℕ) (ok : ℕ → Bool) (sel : List ℕ → ℕ × List ℕ) (s : FState) : FState :=
  match s.q with
  | [] => s
  | _ :: _ =>
    let ir := sel s.q
    (floodNbrs W H ir.1).foldl (floodPushIf (W * H) ok) ⟨s.marked, ir.2⟩

/-- Iterate `floodStep` a fixed number of times. -/
def floodRun (W H : ℕ) (ok : ℕ → Bool) (sel : List ℕ → ℕ × List ℕ) : ℕ → FState → FState
  | 0, s => s
  | n + 1, s => floodRun W H ok sel n (floodStep W H ok sel s)

/-- Enough fuel to drain the queue (proved in `floodRun_empty_of_phi`). -/
def floodFuel (W H : ℕ) : ℕ :=
  5 * (W * H) + (floodSeeds W H).length

/-- Termination measure of the worklist loop: every push marks a fresh
in-range pixel, so `5·(unmarked count) + queue length` strictly decreases at
each non-trivial step. -/
def floodPhi (WH : ℕ) (s : FState) : ℕ :=
  5 * (WH - s.marked.card) + s.q.length

/-- The final background mark set under worklist discipline `sel`. -/
def floodBG (W H : ℕ) (ok : ℕ → Bool) (sel : List ℕ → ℕ × List ℕ) : Finset ℕ :=
  (floodRun W H ok sel (floodFuel W H) (floodInit W H ok)).marked

/-- LIFO discipline: `q.pop()` removes the last element (the code's choice). -/
def selLIFO (l : List ℕ) : ℕ × List ℕ :=
  (l.getLastD 0, l.dropLast)

/-- FIFO discipline: `q.shift()` would remove the first element. -/
def selFIFO (l : List ℕ) : ℕ × List ℕ :=
  (l.headD 0, l.tail)

/-- Properties of a worklist discipline used by the fixpoint argument: on a
non-empty queue it returns a member, keeps every other member, returns only
members, and shortens the queue by exactly one. -/
def selSpec (sel : List ℕ → ℕ × List ℕ) : Prop :=
  ∀ (x : ℕ) (l : List ℕ),
    (sel (x :: l)).1 ∈ x :: l ∧
    (∀ k ∈ x :: l, k ≠ (sel (x :: l)).1 → k ∈ (sel (x :: l)).2) ∧
    (∀ k ∈ (sel (x :: l)).2, k ∈ x :: l) ∧
    (sel (x :: l)).2.length + 1 = (x :: l).length

/-- Pixels reachable by the border flood: a qualifying border pixel is
reachable, and a qualifying in-range neighbor of a reachable pixel is
reachable. -/
inductive FloodReach (W H : ℕ) (ok : ℕ → Bool) : ℕ → Prop where
  | seed (i : ℕ) : i ∈ floodSeeds W H → i < W * H → ok i = true → FloodReach W H ok i
  | push (i j : ℕ) : FloodReach W H ok i → j ∈ floodNbrs W H i → j < W * H → ok j = true →
      FloodReach W H ok j

/-- Background mask of `cutoutBorderOnly` as the code computes it (LIFO). -/
def bgMaskLIFO (W H : ℕ) (img : ℕ → ℕ × ℕ × ℕ) (rawTol : Option ℚ) : Finset ℕ :=
  floodBG W H (nearWhitePx img (effTolerance rawTol)) selLIFO

/-- Background mask with a FIFO worklist instead. -/
def bgMaskFIFO (W H : ℕ) (img : ℕ → ℕ × ℕ × ℕ) (rawTol : Option ℚ) : Finset ℕ :=
  floodBG W H (nearWhitePx img (effTolerance rawTol)) selFIFO

/-! ## Feather/erosion (step 4, lines 80–108) and the composed mask -/

/-- The `allBg` test for pixel `i`: every offset within Chebyshev radius `r`
must be in bounds and in the background set (out-of-canvas neighbors make the
test fail, exactly as in the source). -/
def allBgWithin (W H r : ℕ) (bg : Finset ℕ) (i : ℕ) : Bool :=
  let y := i / W
  let x := i % W
  decide (∀ dy ∈ Finset.Icc (-(r : ℤ)) (r : ℤ), ∀ dx ∈ Finset.Icc (-(r : ℤ)) (r : ℤ),
    0 ≤ (y : ℤ) + dy ∧ (y : ℤ) + dy < (H : ℤ) ∧ 0 ≤ (x : ℤ) + dx ∧ (x : ℤ) + dx < (W : ℤ) ∧
    (((y : ℤ) + dy) * (W : ℤ) + ((x : ℤ) + dx)).toNat ∈ bg)

/-- The contraction pass (only pixels whose whole radius-`r` neighborhood is
background survive); skipped when the feather radius is 0.  The source's
radius is the effective feather value, an integer in every reachable
configuration modelled here. -/
def featherBG (W H r : ℕ) (bg : Finset ℕ) : Finset ℕ :=
  if r = 0 then bg
  else (Finset.range (W * H)).filter (fun i => i ∈ bg ∧ allBgWithin W H r bg i = true)

/-- Background mask after flood fill and feather. -/
def cutoutBGMask (W H : ℕ) (img : ℕ → ℕ × ℕ × ℕ) (rawTol : Option ℚ) (r : ℕ) : Finset ℕ :=
  featherBG W H r (bgMaskLIFO W H img rawTol)

/-- Alpha of pixel `i` after step 5, for a source image with color map `img`
and alpha map `srcAlpha`. -/
def cutoutAlphaStep5 (W H : ℕ) (img : ℕ → ℕ × ℕ × ℕ) (rawTol : Option ℚ) (r : ℕ)
    (srcAlpha : ℕ → ℕ) (i : ℕ) : ℕ :=
  cutoutStep5Alpha (decide (i ∈ cutoutBGMask W H img rawTol r)) (srcAlpha i)

/-- All-white image (every pixel `(255, 255, 255)`). -/
def whiteImg : ℕ → ℕ × ℕ × ℕ := fun _ => (255, 255, 255)

/-- All-black image (every pixel `(0, 0, 0)`). -/
def blackImg : ℕ → ℕ × ℕ × ℕ := fun _ => (0, 0, 0)

/-! ## Connected-component selection (steps 8–9, lines 138–210)

The per-component BFS uses a FIFO queue (`queue.shift()`), marks `visited` on
push, and adds the popped pixel to the component; discovery scans pixel
indices in row-major order (`y` outer, `x` inner) and retains a component only
if its size exceeds 10; the largest-component fold uses a strict `>`, so on
ties the earliest component wins. -/

/-- State of one component BFS: global visited set, queue, component so far. -/
structure CState where
  vis : Finset ℕ
  q : List ℕ
  comp : Finset ℕ

/-- 8-connected neighbor candidates in source order (lines 165–177):
`dy` outer from -1 to 1, `dx` inner, skipping `(0,0)`, with bounds checks. -/
def nbrs8 (W H : ℕ) (i : ℕ) : List ℕ :=
  let cy := i / W
  let cx := i % W
  ([-1, 0, 1] : List ℤ).flatMap (fun dy =>
    ([-1, 0, 1] : List ℤ).flatMap (fun dx =>
      if dy = 0 ∧ dx = 0 then []
      else
        if 0 ≤ (cy : ℤ) + dy ∧ (cy : ℤ) + dy < (H : ℤ) ∧
            0 ≤ (cx : ℤ) + dx ∧ (cx : ℤ) + dx < (W : ℤ) then
          [(((cy : ℤ) + dy) * (W : ℤ) + ((cx : ℤ) + dx)).toNat]
        else []))

/-- Push an opaque, unvisited neighbor (lines 172–176). -/
def compPush (opq : ℕ → Bool) (st : CState) (j : ℕ) : CState :=
  if opq j = true ∧ j ∉ st.vis then ⟨insert j st.vis, st.q ++ [j], st.comp⟩ else st

/-- One iteration of the BFS `while` loop: `queue.shift()`, add to component,
push neighbors. -/
def compStep (W H : ℕ) (opq : ℕ → Bool) (s : CState) : CState :=
  match s.q with
  | [] => s
  | curr :: rest =>
    (nbrs8 W H curr).foldl (compPush opq) ⟨s.vis, rest, insert curr s.comp⟩

/-- Iterate `compStep` a fixed number of times. -/
def compRun (W H : ℕ) (opq : ℕ → Bool) : ℕ → CState → CState
  | 0, s => s
  | n + 1, s => compRun W H opq n (compStep W H opq s)

/-- Fuel for one BFS. -/
def compFuel (W H : ℕ) : ℕ :=
  5 * (W * H) + 1

/-- One component BFS from seed `i` given previously visited pixels; returns
the updated visited set and the component. -/
def bfsComp (W H : ℕ) (opq : ℕ → Bool) (vis0 : Finset ℕ) (i : ℕ) : Finset ℕ × Finset ℕ :=
  let f := compRun W H opq (compFuel W H) ⟨insert i vis0, [i], ∅⟩
  (f.vis, f.comp)

/-- Scan-order component discovery (lines 148–185): indices in row-major
order; unvisited opaque pixels seed a BFS; components of size `> 10` are
appended in discovery order. -/
def discoverComponents (W H : ℕ) (opq : ℕ → Bool) : List (Finset ℕ) :=
  ((List.range (W * H)).foldl (fun acc i =>
    if opq i = true ∧ i ∉ acc.1 then
      ((bfsComp W H opq acc.1 i).1,
        if 10 < (bfsComp W H opq acc.1 i).2.card then acc.2 ++ [(bfsComp W H opq acc.1 i).2]
        else acc.2)
    else acc) ((∅ : Finset ℕ), ([] : List (Finset ℕ)))).2

/-- Largest-component fold (lines 187–196): strict `>` against the running
maximum, starting from `(null, 0)`. -/
def selectLargest (comps : List (Finset ℕ)) : Option (Finset ℕ) × ℕ :=
  comps.foldl (fun acc c => if acc.2 < c.card then (some c, c.card) else acc) (none, 0)

/-- Step 9 (lines 198–210): when a largest component exists, zero the alpha of
every pixel above 50 that is not in it. -/
def keepLargestAlpha (finalA : ℕ → ℕ) (largest : Option (Finset ℕ)) (i : ℕ) : ℕ :=
  match largest with
  | none => finalA i
  | some L => if 50 < finalA i ∧ i ∉ L then 0 else finalA i

/-! ## Directional relief shader of `tools/add_bevel.js` (lines 1429–1455)

The per-pixel classification is generic over a linearly ordered field with
floor so that the definition stays executable; theorems instantiate it at `ℝ`
with `hyp = Math.hypot(gx, gy) = √(gx² + gy²)`. -/

/-- JavaScript `Math.round` (round half toward positive infinity). -/
def jsRound {α : Type} [LinearOrderedField α] [FloorRing α] (x : α) : ℤ :=
  ⌊x + 1 / 2⌋

/-- Storing an integer into a `Buffer` byte (`Uint8Array` semantics: value
modulo 256). -/
def byteWrite (v : ℤ) : ℕ :=
  (v % 256).toNat

/-- Per-rim-pixel shading (lines 1432–1453): normalize the gradient by
`Math.hypot(gx, gy) || 1e-6` (passed as `hyp`), take the dot product with the
light vector `(lx, ly)`, and emit `(shadow, highlight)` RGBA tuples: a negative
dot product writes black with alpha `round(255·intensity·|dot|)` into the
shadow layer, otherwise white with the same formula into the highlight layer;
non-rim pixels leave both layers zero. -/
def shadeRimPixel {α : Type} [LinearOrderedField α] [FloorRing α]
    (rim : Bool) (hyp lx ly gx gy intensity : α) : (ℕ × ℕ × ℕ × ℕ) × (ℕ × ℕ × ℕ × ℕ) :=
  if rim = false then ((0, 0, 0, 0), (0, 0, 0, 0))
  else
    let len := if hyp = 0 then 1 / 1000000 else hyp
    let nx := gx / len
    let ny := gy / len
    let ndotl := nx * lx + ny * ly
    if ndotl < 0 then
      ((0, 0, 0, byteWrite (jsRound (255 * intensity * |ndotl|))), (0, 0, 0, 0))
    else
      ((0, 0, 0, 0), (255, 255, 255, byteWrite (jsRound (255 * intensity * |ndotl|))))

/-! ## Raster sticker borders (both variants of `createRasterSmoothBorder`)

Hard variant (lines 552–645): distance field seeded from the `alpha > 127`
mask, output `alpha > 0 → copy original; distance ≤ strokePx → opaque white`.
Smooth variant (lines 1074–1161): distance field seeded from the `alpha > 0`
mask, output `alpha > 0 → copy original; distance ≤ strokePx → white with
alpha round(255·max(0, 1 - d/strokePx)^(1/softness))`.  `pw` abstracts
JavaScript's `Math.pow`; theorems instantiate it with `Real.rpow`. -/

/-- Hard-ring output pixel given the distance field. -/
def rasterHardPixel (expanded : ℕ → ℕ) (strokePx : ℚ) (df : ℕ → ℚ × ℚ) (i : ℕ) :
    ℕ × ℕ × ℕ × ℕ :=
  if 0 < expanded (4 * i + 3) then
    (expanded (4 * i), expanded (4 * i + 1), expanded (4 * i + 2), expanded (4 * i + 3))
  else if rle (df i) (strokePx, 0) then (255, 255, 255, 255)
  else (0, 0, 0, 0)

/-- Hard-ring variant wired to its chamfer field (mask `alpha > 127`). -/
def rasterHardBorder (expanded : ℕ → ℕ) (W H : ℕ) (strokePx : ℚ) (i : ℕ) : ℕ × ℕ × ℕ × ℕ :=
  rasterHardPixel expanded strokePx
    (fun j => dfGet (chamferDistanceField W H strokePx
      (fun k => decide (127 < expanded (4 * k + 3)))) j) i

/-- Smooth-falloff output pixel given the distance field. -/
def rasterSmoothPixel {α : Type} [LinearOrderedField α] [FloorRing α] (sqrt2 : α)
    (pw : α → α → α) (expanded : ℕ → ℕ) (strokePx softness : ℚ) (df : ℕ → ℚ × ℚ) (i : ℕ) :
    ℕ × ℕ × ℕ × ℕ :=
  if 0 < expanded (4 * i + 3) then
    (expanded (4 * i), expanded (4 * i + 1), expanded (4 * i + 2), expanded (4 * i + 3))
  else
    let distance : α := ((df i).1 : α) + ((df i).2 : α) * sqrt2
    if distance ≤ (strokePx : α) then
      let borderStrength := max 0 (1 - distance / (strokePx : α))
      let smoothStrength := pw borderStrength (1 / (softness : α))
      let alpha := jsRound ((255 : α) * smoothStrength)
      if 0 < alpha then (255, 255, 255, byteWrite alpha) else (0, 0, 0, 0)
    else (0, 0, 0, 0)

/-- Smooth variant wired to its chamfer field (mask `alpha > 0`). -/
def rasterSmoothBorder {α : Type} [LinearOrderedField α] [FloorRing α] (sqrt2 : α)
    (pw : α → α → α) (expanded : ℕ → ℕ) (W H : ℕ) (strokePx softness : ℚ) (i : ℕ) :
    ℕ × ℕ × ℕ × ℕ :=
  rasterSmoothPixel sqrt2 pw expanded strokePx softness
    (fun j => dfGet (chamferDistanceField W H strokePx
      (fun k => decide (0 < expanded (4 * k + 3)))) j) i

/-! ## The safety claim about CLI parameter clamping, as stated -/

/-- Every raw argument (numeric or NaN) yields an effective stroke in
`[1, 500]`, softness in `[0.1, 5]`, and intensity a number in `[0, 1]`. -/
def paramClampClaim : Prop :=
  (∀ raw : Option ℚ, 1 ≤ effStrokePx raw ∧ effStrokePx raw ≤ 500) ∧
  (∀ raw : Option ℚ, 1/10 ≤ effSoftness raw ∧ effSoftness raw ≤ 5) ∧
  (∀ raw : Option ℚ, ∃ q, effIntensity raw = some q ∧ 0 ≤ q ∧ q ≤ 1)

/-- A 1×1 RGBA buffer whose single pixel is `(7, 7, 7, 200)` (a subject
pixel). -/
def subjectPixelImg : ℕ → ℕ :=
  fun j => if j = 3 then 200 else if j < 3 then 7 else 0

/-! ## Claims about the cutout pipeline, as stated -/

/-- Claim C3 as stated: invoking the segmenter with tolerance 0 makes no pixel
near-white and the background mask empty. -/
def toleranceZeroClaim : Prop :=
  ∀ (W H : ℕ) (img : ℕ → ℕ × ℕ × ℕ),
    (∀ i, nearWhitePx img (effTolerance (some 0)) i = false) ∧
    bgMaskLIFO W H img (some 0) = ∅

/-- Claim C4 as stated: an all-pure-white input with any tolerance `≤ 255`
(and the default feather 2) comes out of the segmentation stage with alpha 0
at every pixel. -/
def whiteAllTransparentClaim : Prop :=
  ∀ (W H : ℕ) (t : ℚ), t ≤ 255 → ∀ i < W * H,
    cutoutAlphaStep5 W H whiteImg (some t) 2 (fun _ => 255) i = 0

/-- Opacity map of a 7×4 canvas holding two separated 12-pixel components:
columns 0–2 and columns 4–6 (column 3 empty). -/
def opq74 : ℕ → Bool :=
  fun i => decide (i < 28 ∧ (i % 7 ≤ 2 ∨ 4 ≤ i % 7))

/-- Cleaned-alpha map realizing `opq74` (opaque pixels have alpha 200). -/
def cl74 : ℕ → ℕ :=
  fun i => if opq74 i then 200 else 0

/-- Loop invariant of the border flood fill: marked pixels are in range and
qualify, queued pixels are marked, marked pixels are reachable, every marked
pixel is either still queued or has all its qualifying neighbors marked, and
every qualifying seed is marked. -/
structure FloodInv (W H : ℕ) (ok : ℕ → Bool) (s : FState) : Prop where
  sub : ∀ i ∈ s.marked, i < W * H ∧ ok i = true
  qmem : ∀ i ∈ s.q, i ∈ s.marked
  reach : ∀ i ∈ s.marked, FloodReach W H ok i
  closed : ∀ i ∈ s.marked, i ∈ s.q ∨
    ∀ j ∈ floodNbrs W H i, j < W * H → ok j = true → j ∈ s.marked
  seedsIn : ∀ i ∈ floodSeeds W H, i < W * H → ok i = true → i ∈ s.marked

/-- The octile (chamfer) distance of the plane offset `(a, b)`:
`max(|a|,|b|) + (√2 - 1)·min(|a|,|b|)`, which equals
`min(|a|,|b|)·√2 + (max(|a|,|b|) - min(|a|,|b|))`.  This is the exact
path-length metric realized by unit axis steps and `√2` diagonal steps. -/
noncomputable def octile (a b : ℝ) : ℝ :=
  max |a| |b| + (Real.sqrt 2 - 1) * min |a| |b|

/-! ## Theorems

Everything below this point is a lemma or a theorem; all model definitions
are above. -/

lemma r2nn_iff_of {γ : Type} [LinearOrderedRing γ] (f : γ → ℝ)
    (hle : ∀ a b : γ, a ≤ b ↔ f a ≤ f b) (h0 : f 0 = 0)
    (hmul : ∀ a b : γ, f (a * b) = f a * f b) (h2 : f 2 = 2) (x y : γ) :
    r2nn x y = true ↔ (0 : ℝ) ≤ f x + f y * Real.sqrt 2 := by
  have hs0 : (0 : ℝ) ≤ Real.sqrt 2 := Real.sqrt_nonneg 2
  have hs2 : Real.sqrt 2 * Real.sqrt 2 = 2 := Real.mul_self_sqrt (by norm_num)
  have hless : ∀ a b : γ, a < b ↔ f a < f b := by
    intro a b
    rw [lt_iff_le_not_le, lt_iff_le_not_le, hle, hle]
  unfold r2nn
  rcases le_or_lt 0 x with hx | hx <;> rcases le_or_lt 0 y with hy | hy
  · simp only [if_pos hx, if_pos hy, true_iff]
    have hxr : (0 : ℝ) ≤ f x := h0 ▸ (hle 0 x).mp hx
    have hyr : (0 : ℝ) ≤ f y := h0 ▸ (hle 0 y).mp hy
    positivity
  · simp only [if_pos hx, if_neg (not_le.mpr hy), decide_eq_true_eq]
    have hxr : (0 : ℝ) ≤ f x := h0 ▸ (hle 0 x).mp hx
    have hyr : f y < 0 := h0 ▸ (hless y 0).mp hy
    rw [hle, hmul, hmul, hmul, h2]
    constructor
    · intro h
      nlinarith [hs0, hs2, hxr, hyr, h]
    · intro h'
      have hfac : (0 : ℝ) ≤ f x - f y * Real.sqrt 2 := by
        have : f y * Real.sqrt 2 ≤ 0 := mul_nonpos_of_nonpos_of_nonneg hyr.le hs0
        linarith
      nlinarith [mul_nonneg h' hfac, hs2]
  · simp only [if_neg (not_le.mpr hx), if_pos hy, decide_eq_true_eq]
    have hxr : f x < 0 := h0 ▸ (hless x 0).mp hx
    have hyr : (0 : ℝ) ≤ f y := h0 ▸ (hle 0 y).mp hy
    rw [hle, hmul, hmul, hmul, h2]
    constructor
    · intro h'
      by_contra hneg
      push_neg at hneg
      have hf1 : (0 : ℝ) < -(f x + f y * Real.sqrt 2) := by linarith
      have hf2 : (0 : ℝ) < -f x + f y * Real.sqrt 2 := by
        have : (0 : ℝ) ≤ f y * Real.sqrt 2 := mul_nonneg hyr hs0
        linarith
      nlinarith [mul_pos hf1 hf2, hs2]
    · intro h'
      have hf : (0 : ℝ) ≤ -f x + f y * Real.sqrt 2 := by
        have : (0 : ℝ) ≤ f y * Real.sqrt 2 := mul_nonneg hyr hs0
        linarith
      nlinarith [mul_nonneg h' hf, hs2]
  · simp only [if_neg (not_le.mpr hx), if_neg (not_le.mpr hy), Bool.false_eq_true, false_iff,
      not_le]
    have hxr : f x < 0 := h0 ▸ (hless x 0).mp hx
    have hyr : f y < 0 := h0 ▸ (hless y 0).mp hy
    have hws : f y * Real.sqrt 2 ≤ 0 := mul_nonpos_of_nonpos_of_nonneg hyr.le hs0
    linarith

lemma ratCast_le_iff (a b : ℚ) : a ≤ b ↔ (a : ℝ) ≤ (b : ℝ) := by exact_mod_cast Iff.rfl

lemma intCast_le_iff (a b : ℤ) : a ≤ b ↔ (a : ℝ) ≤ (b : ℝ) := by exact_mod_cast Iff.rfl

lemma rleQ_iff (p q : ℚ × ℚ) : rle p q = true ↔ r2valQ p ≤ r2valQ q := by
  unfold rle r2valQ
  rw [r2nn_iff_of (fun a : ℚ => (a : ℝ)) ratCast_le_iff (by norm_num)
    (by intro a b; push_cast; ring) (by norm_num)]
  push_cast
  constructor <;> intro h <;> nlinarith [h]

lemma rleZ_iff (p q : ℤ × ℤ) : rle p q = true ↔ r2valZ p ≤ r2valZ q := by
  unfold rle r2valZ
  rw [r2nn_iff_of (fun a : ℤ => (a : ℝ)) intCast_le_iff (by norm_num)
    (by intro a b; push_cast; ring) (by norm_num)]
  push_cast
  constructor <;> intro h <;> nlinarith [h]

lemma rleQ_total (p q : ℚ × ℚ) : rle p q = true ∨ rle q p = true := by
  rcases le_total (r2valQ p) (r2valQ q) with h | h
  · exact Or.inl ((rleQ_iff p q).mpr h)
  · exact Or.inr ((rleQ_iff q p).mpr h)

lemma rminQ_val (p q : ℚ × ℚ) : r2valQ (rmin p q) = min (r2valQ p) (r2valQ q) := by
  unfold rmin
  by_cases h : rle p q = true
  · rw [if_pos h]
    exact (min_eq_left ((rleQ_iff p q).mp h)).symm
  · rw [if_neg h]
    rcases rleQ_total p q with h' | h'
    · exact absurd h' h
    · exact (min_eq_right ((rleQ_iff q p).mp h')).symm

lemma rleZ_total (p q : ℤ × ℤ) : rle p q = true ∨ rle q p = true := by
  rcases le_total (r2valZ p) (r2valZ q) with h | h
  · exact Or.inl ((rleZ_iff p q).mpr h)
  · exact Or.inr ((rleZ_iff q p).mpr h)

lemma rminZ_val (p q : ℤ × ℤ) : r2valZ (rmin p q) = min (r2valZ p) (r2valZ q) := by
  unfold rmin
  by_cases h : rle p q = true
  · rw [if_pos h]
    exact (min_eq_left ((rleZ_iff p q).mp h)).symm
  · rw [if_neg h]
    rcases rleZ_total p q with h' | h'
    · exact absurd h' h
    · exact (min_eq_right ((rleZ_iff q p).mp h')).symm

set_option maxRecDepth 100000 in
lemma df11_eq : df11 = df11Expected := by decide

/-- C1: the ring compositor sets a pixel's output alpha to 255 exactly when the
pixel is background (mask value 0) and its distance `d` satisfies
`inner < d ≤ outer` with `inner = offsetPx`, `outer = offsetPx + edgePx`, and
to 0 otherwise; with `inner = 5`, `outer = 10` (offset 5, edge 5) a background
pixel at distance 7 gets alpha `> 0` while distances 3 and 12 get alpha 0. -/
theorem ring_band_alpha_correct :
    (∀ (m : ℕ) (d offsetPx edgePx : ℚ),
        (ringAlphaPixel m d offsetPx edgePx = 255 ↔
          (m = 0 ∧ offsetPx < d ∧ d ≤ offsetPx + edgePx)) ∧
        (ringAlphaPixel m d offsetPx edgePx = 255 ∨ ringAlphaPixel m d offsetPx edgePx = 0)) ∧
    0 < ringAlphaPixel 0 7 5 5 ∧
    ringAlphaPixel 0 3 5 5 = 0 ∧
    ringAlphaPixel 0 12 5 5 = 0 := by
  refine ⟨fun m d o e => ?_, by norm_num [ringAlphaPixel], by norm_num [ringAlphaPixel],
    by norm_num [ringAlphaPixel]⟩
  simp only [ringAlphaPixel]
  split_ifs with h
  · exact ⟨iff_of_true rfl h, Or.inl rfl⟩
  · exact ⟨iff_of_false (by norm_num) h, Or.inr rfl⟩

/-- C9 counterexample: a non-background pixel with source alpha 100 keeps
alpha 100 in step 5 of `cutoutBorderOnly` — it is not forced to 255, refuting
the claim that every non-background pixel's alpha is forced to 255. -/
theorem step5_nonbg_counterexample :
    cutoutStep5Alpha false 100 = 100 ∧ (100 : ℕ) ≠ 255 := by
  constructor
  · rfl
  · decide

/-- C9 amended: step 5 zeroes the alpha of background pixels; a non-background
pixel with source alpha exactly 0 is forced to 255 (so full source
transparency outside the removed background region is not preserved); any
other non-background pixel keeps its source alpha. -/
theorem step5_alpha_rule (a : ℕ) (ha : a ≠ 0) :
    cutoutStep5Alpha true a = 0 ∧
    cutoutStep5Alpha false 0 = 255 ∧
    cutoutStep5Alpha false a = a := by
  refine ⟨rfl, rfl, ?_⟩
  simp [cutoutStep5Alpha, ha]

/-- C9 amended, witness at `a = 100`. -/
theorem step5_alpha_rule_witness :
    cutoutStep5Alpha true 100 = 0 ∧
    cutoutStep5Alpha false 0 = 255 ∧
    cutoutStep5Alpha false 100 = 100 :=
  step5_alpha_rule 100 (by decide)

/-- C8 counterexample: a non-numeric intensity argument (`parseFloat` returns
NaN, modelled as `none`) escapes the `[0, 1]` clamp — `Math.min`/`Math.max`
propagate NaN — so the claim that every raw argument yields in-range effective
parameters is false. -/
theorem param_clamp_counterexample : ¬ paramClampClaim := by
  intro h
  obtain ⟨q, hq, -, -⟩ := h.2.2 none
  simp [effIntensity, clampJS, jsMaxOpt, jsMinOpt] at hq

/-- C8 amended: stroke thickness and softness are clamped into `[1, 500]` and
`[0.1, 5]` for every raw argument including NaN (the `|| default` fallback
runs before the clamp), and intensity is clamped into `[0, 1]` for every raw
argument that parses to a number; a NaN intensity argument stays NaN. -/
theorem param_clamp_amended :
    (∀ raw : Option ℚ, 1 ≤ effStrokePx raw ∧ effStrokePx raw ≤ 500) ∧
    (∀ raw : Option ℚ, 1/10 ≤ effSoftness raw ∧ effSoftness raw ≤ 5) ∧
    (∀ q : ℚ, ∃ q', effIntensity (some q) = some q' ∧ 0 ≤ q' ∧ q' ≤ 1) ∧
    effIntensity none = none := by
  refine ⟨fun raw => ?_, fun raw => ?_, fun q => ?_, rfl⟩
  · unfold effStrokePx
    constructor
    · exact le_max_left 1 _
    · exact max_le (by norm_num) (min_le_left 500 _)
  · unfold effSoftness
    constructor
    · exact le_max_left (1/10) _
    · exact max_le (by norm_num) (min_le_left 5 _)
  · refine ⟨max 0 (min 1 q), rfl, le_max_left 0 _, max_le (by norm_num) (min_le_left 1 q)⟩

/-- C5: for every rim pixel the relief shader writes exactly one of the two
layers — a negative normalized-gradient/light dot product writes black into
the shadow layer with alpha `round(255·intensity·|dot|)` and leaves the
highlight layer zero, a non-negative one writes white into the highlight layer
with alpha `round(255·intensity·dot)` and leaves the shadow layer zero — and
non-rim pixels are zero in both layers.  `hyp` is `Math.hypot(gx, gy)` and the
light vector is `(cos(θ·π/180), sin(θ·π/180))`. -/
theorem relief_shader_classification (gx gy theta intensity hyp lx ly : ℝ) (rim : Bool)
    (_hhyp : hyp = Real.sqrt (gx ^ 2 + gy ^ 2))
    (_hlx : lx = Real.cos (theta * Real.pi / 180))
    (_hly : ly = Real.sin (theta * Real.pi / 180)) :
    (rim = false → shadeRimPixel rim hyp lx ly gx gy intensity = ((0, 0, 0, 0), (0, 0, 0, 0))) ∧
    (∀ len d : ℝ,
      len = (if hyp = 0 then 1 / 1000000 else hyp) →
      d = gx / len * lx + gy / len * ly →
      (rim = true → d < 0 →
        shadeRimPixel rim hyp lx ly gx gy intensity =
          ((0, 0, 0, byteWrite (jsRound (255 * intensity * |d|))), (0, 0, 0, 0))) ∧
      (rim = true → 0 ≤ d →
        shadeRimPixel rim hyp lx ly gx gy intensity =
          ((0, 0, 0, 0), (255, 255, 255, byteWrite (jsRound (255 * intensity * d)))))) := by
  constructor
  · intro h
    simp [shadeRimPixel, h]
  · intro len d hlen hd
    constructor
    · intro hrim hdn
      subst hrim hlen hd
      simp only [shadeRimPixel]
      rw [if_neg (by simp)]
      rw [if_pos hdn]
    · intro hrim hdn
      subst hrim hlen hd
      simp only [shadeRimPixel]
      rw [if_neg (by simp)]
      rw [if_neg (not_lt.mpr hdn), abs_of_nonneg hdn]

/-- C5 witness: light angle 0° (light vector `(1, 0)`), intensity `1/2`; a rim
pixel with gradient `(-2, 0)` (dot `-1`) lands only in the shadow layer with
alpha 128, and one with gradient `(2, 0)` (dot `+1`) only in the highlight
layer with alpha 128. -/
theorem relief_shader_classification_witness :
    shadeRimPixel (α := ℝ) true 2 1 0 (-2) 0 (1/2) = ((0, 0, 0, 128), (0, 0, 0, 0)) ∧
    shadeRimPixel (α := ℝ) true 2 1 0 2 0 (1/2) = ((0, 0, 0, 0), (255, 255, 255, 128)) := by
  have hs : Real.sqrt 4 = 2 := by
    rw [show (4 : ℝ) = 2 ^ 2 by norm_num, Real.sqrt_sq (by norm_num : (0 : ℝ) ≤ 2)]
  constructor
  · have h := (relief_shader_classification (-2) 0 0 (1/2) 2 1 0 true
      (by rw [show ((-2 : ℝ)) ^ 2 + 0 ^ 2 = 4 by norm_num, hs])
      (by rw [show (0 : ℝ) * Real.pi / 180 = 0 by ring, Real.cos_zero])
      (by rw [show (0 : ℝ) * Real.pi / 180 = 0 by ring, Real.sin_zero])).2
    have h2 := (h 2 (-1) (by norm_num) (by norm_num)).1 rfl (by norm_num)
    rw [h2]
    norm_num [jsRound, byteWrite]
    rfl
  · have h := (relief_shader_classification 2 0 0 (1/2) 2 1 0 true
      (by rw [show ((2 : ℝ)) ^ 2 + 0 ^ 2 = 4 by norm_num, hs])
      (by rw [show (0 : ℝ) * Real.pi / 180 = 0 by ring, Real.cos_zero])
      (by rw [show (0 : ℝ) * Real.pi / 180 = 0 by ring, Real.sin_zero])).2
    have h2 := (h 2 1 (by norm_num) (by norm_num)).2 rfl (by norm_num)
    rw [h2]
    norm_num [jsRound, byteWrite]
    rfl

/-- C10: both raster border variants never alter subject pixels — wherever the
(padded) input has alpha `> 0`, the output pixel equals the input's four
channels exactly; border color can only land on pixels with input alpha 0. -/
theorem raster_border_preserves_subject {α : Type} [LinearOrderedField α] [FloorRing α]
    (sqrt2 : α) (pw : α → α → α) (expanded : ℕ → ℕ) (W H : ℕ) (strokePx softness : ℚ)
    (i : ℕ) (h : 0 < expanded (4 * i + 3)) :
    rasterHardBorder expanded W H strokePx i =
      (expanded (4 * i), expanded (4 * i + 1), expanded (4 * i + 2), expanded (4 * i + 3)) ∧
    rasterSmoothBorder sqrt2 pw expanded W H strokePx softness i =
      (expanded (4 * i), expanded (4 * i + 1), expanded (4 * i + 2), expanded (4 * i + 3)) := by
  unfold rasterHardBorder rasterSmoothBorder rasterHardPixel rasterSmoothPixel
  rw [if_pos h, if_pos h]
  exact ⟨rfl, rfl⟩

/-- C10 witness: a 1×1 canvas whose pixel has RGBA `(7, 7, 7, 200)` passes
through both variants unchanged (smooth variant instantiated at `ℝ` with
`√2` and `Math.pow = Real.rpow`). -/
theorem raster_border_preserves_subject_witness :
    rasterHardBorder subjectPixelImg 1 1 16 0 = (7, 7, 7, 200) ∧
    rasterSmoothBorder (Real.sqrt 2) Real.rpow subjectPixelImg 1 1 16 (4/5) 0 =
      (7, 7, 7, 200) := by
  have h := raster_border_preserves_subject (Real.sqrt 2) Real.rpow subjectPixelImg 1 1 16
    (4/5) 0 (by norm_num [subjectPixelImg])
  simpa [subjectPixelImg] using h

/-! ### Worklist fold lemmas -/

lemma floodPushIf_eq_or (WH : ℕ) (ok : ℕ → Bool) (s : FState) (i : ℕ) :
    floodPushIf WH ok s i = s ∨
    (i < WH ∧ ok i = true ∧ i ∉ s.marked ∧
      floodPushIf WH ok s i = ⟨insert i s.marked, s.q ++ [i]⟩) := by
  unfold floodPushIf
  split_ifs with h
  · exact Or.inr ⟨h.1, h.2.1, h.2.2, rfl⟩
  · exact Or.inl rfl

lemma floodPushIf_self_marked (WH : ℕ) (ok : ℕ → Bool) (s : FState) (i : ℕ)
    (hlt : i < WH) (hok : ok i = true) : i ∈ (floodPushIf WH ok s i).marked := by
  unfold floodPushIf
  split_ifs with h
  · exact Finset.mem_insert_self i s.marked
  · push_neg at h
    exact h hlt hok

lemma floodFold_marked_mono (WH : ℕ) (ok : ℕ → Bool) :
    ∀ (ns : List ℕ) (s : FState) (k : ℕ), k ∈ s.marked →
      k ∈ (ns.foldl (floodPushIf WH ok) s).marked := by
  intro ns
  induction ns with
  | nil => intro s k hk; exact hk
  | cons a t ih =>
    intro s k hk
    rw [List.foldl_cons]
    apply ih
    rcases floodPushIf_eq_or WH ok s a with h | ⟨-, -, -, h⟩ <;> rw [h]
    · exact hk
    · exact Finset.mem_insert_of_mem hk

lemma floodFold_q_keep (WH : ℕ) (ok : ℕ → Bool) :
    ∀ (ns : List ℕ) (s : FState) (k : ℕ), k ∈ s.q →
      k ∈ (ns.foldl (floodPushIf WH ok) s).q := by
  intro ns
  induction ns with
  | nil => intro s k hk; exact hk
  | cons a t ih =>
    intro s k hk
    rw [List.foldl_cons]
    apply ih
    rcases floodPushIf_eq_or WH ok s a with h | ⟨-, -, -, h⟩ <;> rw [h]
    · exact hk
    · exact List.mem_append_left _ hk

lemma floodFold_marked_from (WH : ℕ) (ok : ℕ → Bool) :
    ∀ (ns : List ℕ) (s : FState) (k : ℕ),
      k ∈ (ns.foldl (floodPushIf WH ok) s).marked →
      k ∈ s.marked ∨ (k ∈ ns ∧ k < WH ∧ ok k = true) := by
  intro ns
  induction ns with
  | nil => intro s k hk; exact Or.inl hk
  | cons a t ih =>
    intro s k hk
    rw [List.foldl_cons] at hk
    rcases ih _ k hk with hk' | ⟨hkt, hlt, hok⟩
    · rcases floodPushIf_eq_or WH ok s a with h | ⟨halt, haok, -, h⟩ <;> rw [h] at hk'
      · exact Or.inl hk'
      · rcases Finset.mem_insert.mp hk' with rfl | hk''
        · exact Or.inr ⟨List.mem_cons_self _ _, halt, haok⟩
        · exact Or.inl hk''
    · exact Or.inr ⟨List.mem_cons_of_mem a hkt, hlt, hok⟩

lemma floodFold_covers (WH : ℕ) (ok : ℕ → Bool) :
    ∀ (ns : List ℕ) (s : FState) (k : ℕ), k ∈ ns → k < WH → ok k = true →
      k ∈ (ns.foldl (floodPushIf WH ok) s).marked := by
  intro ns
  induction ns with
  | nil => intro s k hk; cases hk
  | cons a t ih =>
    intro s k hk hlt hok
    rw [List.foldl_cons]
    rcases List.mem_cons.mp hk with rfl | hkt
    · exact floodFold_marked_mono WH ok t _ k (floodPushIf_self_marked WH ok s k hlt hok)
    · exact ih _ k hkt hlt hok

lemma floodFold_qmem (WH : ℕ) (ok : ℕ → Bool) :
    ∀ (ns : List ℕ) (s : FState), (∀ k ∈ s.q, k ∈ s.marked) →
      ∀ k ∈ (ns.foldl (floodPushIf WH ok) s).q,
        k ∈ (ns.foldl (floodPushIf WH ok) s).marked := by
  intro ns
  induction ns with
  | nil => intro s h k hk; exact h k hk
  | cons a t ih =>
    intro s h k hk
    rw [List.foldl_cons] at hk ⊢
    refine ih _ ?_ k hk
    rcases floodPushIf_eq_or WH ok s a with he | ⟨-, -, -, he⟩ <;> rw [he]
    · exact h
    · intro k' hk'
      rcases List.mem_append.mp hk' with hk'' | hk''
      · exact Finset.mem_insert_of_mem (h k' hk'')
      · rcases List.mem_singleton.mp hk'' with rfl
        exact Finset.mem_insert_self _ _

lemma floodFold_marked_to_q (WH : ℕ) (ok : ℕ → Bool) :
    ∀ (ns : List ℕ) (s : FState) (k : ℕ),
      k ∈ (ns.foldl (floodPushIf WH ok) s).marked →
      k ∈ s.marked ∨ k ∈ (ns.foldl (floodPushIf WH ok) s).q := by
  intro ns
  induction ns with
  | nil => intro s k hk; exact Or.inl hk
  | cons a t ih =>
    intro s k hk
    rw [List.foldl_cons] at hk ⊢
    rcases ih _ k hk with hk' | hk'
    · rcases floodPushIf_eq_or WH ok s a with he | ⟨-, -, -, he⟩ <;> rw [he] at hk'
      · exact Or.inl hk'
      · rcases Finset.mem_insert.mp hk' with rfl | hk''
        · right
          apply floodFold_q_keep WH ok t _ k
          rw [he]
          exact List.mem_append_right _ (List.mem_singleton_self k)
        · exact Or.inl hk''
    · exact Or.inr hk'

lemma floodFold_len (WH : ℕ) (ok : ℕ → Bool) :
    ∀ (ns : List ℕ) (s : FState),
      (ns.foldl (floodPushIf WH ok) s).q.length ≤ s.q.length + ns.length := by
  intro ns
  induction ns with
  | nil => intro s; simp
  | cons a t ih =>
    intro s
    rw [List.foldl_cons]
    refine le_trans (ih _) ?_
    rcases floodPushIf_eq_or WH ok s a with he | ⟨-, -, -, he⟩ <;> rw [he]
    · simp only [List.length_cons]
      omega
    · simp only [List.length_append, List.length_singleton, List.length_cons, List.length_nil]
      omega

lemma floodFold_phi (WH : ℕ) (ok : ℕ → Bool) :
    ∀ (ns : List ℕ) (s : FState), s.marked ⊆ Finset.range WH →
      (ns.foldl (floodPushIf WH ok) s).marked ⊆ Finset.range WH ∧
      floodPhi WH (ns.foldl (floodPushIf WH ok) s) ≤ floodPhi WH s := by
  intro ns
  induction ns with
  | nil => intro s hsub; exact ⟨hsub, le_refl _⟩
  | cons a t ih =>
    intro s hsub
    rw [List.foldl_cons]
    rcases floodPushIf_eq_or WH ok s a with he | ⟨halt, -, hamem, he⟩
    · rw [he]
      exact ih s hsub
    · have hsub' : (floodPushIf WH ok s a).marked ⊆ Finset.range WH := by
        rw [he]
        exact Finset.insert_subset (Finset.mem_range.mpr halt) hsub
      refine ⟨(ih _ hsub').1, le_trans (ih _ hsub').2 ?_⟩
      rw [he]
      unfold floodPhi
      have hcard : (insert a s.marked).card = s.marked.card + 1 :=
        Finset.card_insert_of_not_mem hamem
      have hle : (insert a s.marked).card ≤ WH := by
        have : insert a s.marked ⊆ Finset.range WH :=
          Finset.insert_subset (Finset.mem_range.mpr halt) hsub
        simpa using Finset.card_le_card this
      simp only [hcard, List.length_append, List.length_singleton]
      omega

/-! ### Step and run lemmas -/

lemma floodInv_range {W H : ℕ} {ok : ℕ → Bool} {s : FState} (hinv : FloodInv W H ok s) :
    s.marked ⊆ Finset.range (W * H) :=
  fun i hi => Finset.mem_range.mpr (hinv.sub i hi).1

lemma floodStep_empty (W H : ℕ) (ok : ℕ → Bool) (sel : List ℕ → ℕ × List ℕ) (s : FState)
    (h : s.q = []) : floodStep W H ok sel s = s := by
  obtain ⟨m, q⟩ := s
  simp only at h
  subst h
  rfl

lemma floodRun_of_empty (W H : ℕ) (ok : ℕ → Bool) (sel : List ℕ → ℕ × List ℕ) :
    ∀ (n : ℕ) (s : FState), s.q = [] → floodRun W H ok sel n s = s := by
  intro n
  induction n with
  | zero => intro s _; rfl
  | succ n ih =>
    intro s h
    rw [floodRun, floodStep_empty W H ok sel s h]
    exact ih s h

lemma floodStep_phi (W H : ℕ) (ok : ℕ → Bool) (sel : List ℕ → ℕ × List ℕ)
    (hsel : selSpec sel) (s : FState) (hsub : s.marked ⊆ Finset.range (W * H))
    (hq : s.q ≠ []) :
    floodPhi (W * H) (floodStep W H ok sel s) < floodPhi (W * H) s := by
  obtain ⟨m, q⟩ := s
  cases q with
  | nil => exact absurd rfl hq
  | cons x l =>
    obtain ⟨-, -, -, hlen⟩ := hsel x l
    have hmid : floodPhi (W * H) (⟨m, (sel (x :: l)).2⟩ : FState) + 1 =
        floodPhi (W * H) (⟨m, x :: l⟩ : FState) := by
      unfold floodPhi
      simp only
      omega
    have hfold := floodFold_phi (W * H) ok (floodNbrs W H (sel (x :: l)).1)
      ⟨m, (sel (x :: l)).2⟩ hsub
    show floodPhi (W * H)
      ((floodNbrs W H (sel (x :: l)).1).foldl (floodPushIf (W * H) ok)
        ⟨m, (sel (x :: l)).2⟩) < _
    omega

lemma floodStep_inv (W H : ℕ) (ok : ℕ → Bool) (sel : List ℕ → ℕ × List ℕ)
    (hsel : selSpec sel) (s : FState) (hinv : FloodInv W H ok s) :
    FloodInv W H ok (floodStep W H ok sel s) := by
  obtain ⟨m, q⟩ := s
  cases q with
  | nil => exact hinv
  | cons x l =>
    obtain ⟨hmem, hkeep, hmem2, -⟩ := hsel x l
    have hi0m : (sel (x :: l)).1 ∈ m := hinv.qmem _ hmem
    show FloodInv W H ok
      ((floodNbrs W H (sel (x :: l)).1).foldl (floodPushIf (W * H) ok)
        ⟨m, (sel (x :: l)).2⟩)
    constructor
    · intro k hk
      rcases floodFold_marked_from _ ok _ _ k hk with hk' | ⟨-, hlt, hok⟩
      · exact hinv.sub k hk'
      · exact ⟨hlt, hok⟩
    · exact floodFold_qmem _ ok _ _ (fun k hk => hinv.qmem k (hmem2 k hk))
    · intro k hk
      rcases floodFold_marked_from _ ok _ _ k hk with hk' | ⟨hnbr, hlt, hok⟩
      · exact hinv.reach k hk'
      · exact FloodReach.push _ k (hinv.reach _ hi0m) hnbr hlt hok
    · intro k hk
      rcases floodFold_marked_to_q _ ok _ _ k hk with hk' | hk'
      · by_cases hk0 : k = (sel (x :: l)).1
        · subst hk0
          right
          intro j hj hjlt hjok
          exact floodFold_covers _ ok _ _ j hj hjlt hjok
        · rcases hinv.closed k hk' with hkq | hkcl
          · left
            exact floodFold_q_keep _ ok _ _ k (hkeep k hkq hk0)
          · right
            intro j hj hjlt hjok
            exact floodFold_marked_mono _ ok _ _ j (hkcl j hj hjlt hjok)
      · exact Or.inl hk'
    · intro k hk hlt hok
      exact floodFold_marked_mono _ ok _ _ k (hinv.seedsIn k hk hlt hok)

lemma floodRun_inv (W H : ℕ) (ok : ℕ → Bool) (sel : List ℕ → ℕ × List ℕ)
    (hsel : selSpec sel) :
    ∀ (n : ℕ) (s : FState), FloodInv W H ok s →
      FloodInv W H ok (floodRun W H ok sel n s) := by
  intro n
  induction n with
  | zero => intro s h; exact h
  | succ n ih =>
    intro s h
    rw [floodRun]
    exact ih _ (floodStep_inv W H ok sel hsel s h)

lemma floodRun_empty_of_phi (W H : ℕ) (ok : ℕ → Bool) (sel : List ℕ → ℕ × List ℕ)
    (hsel : selSpec sel) :
    ∀ (n : ℕ) (s : FState), FloodInv W H ok s → floodPhi (W * H) s ≤ n →
      (floodRun W H ok sel n s).q = [] := by
  intro n
  induction n with
  | zero =>
    intro s _ hphi
    unfold floodPhi at hphi
    have : s.q.length = 0 := by omega
    exact List.length_eq_zero.mp this
  | succ n ih =>
    intro s hinv hphi
    by_cases hq : s.q = []
    · rw [floodRun, floodStep_empty W H ok sel s hq, floodRun_of_empty W H ok sel n s hq]
      exact hq
    · have hlt := floodStep_phi W H ok sel hsel s (floodInv_range hinv) hq
      rw [floodRun]
      exact ih _ (floodStep_inv W H ok sel hsel s hinv) (by omega)

/-! ### Initialization, fixpoint, and the two worklist disciplines -/

lemma floodInit_inv (W H : ℕ) (ok : ℕ → Bool) : FloodInv W H ok (floodInit W H ok) := by
  unfold floodInit
  constructor
  · intro k hk
    rcases floodFold_marked_from _ ok _ _ k hk with hk' | ⟨-, hlt, hok⟩
    · exact absurd hk' (Finset.not_mem_empty k)
    · exact ⟨hlt, hok⟩
  · refine floodFold_qmem _ ok _ _ ?_
    intro k hk
    cases hk
  · intro k hk
    rcases floodFold_marked_from _ ok _ _ k hk with hk' | ⟨hks, hlt, hok⟩
    · exact absurd hk' (Finset.not_mem_empty k)
    · exact FloodReach.seed k hks hlt hok
  · intro k hk
    rcases floodFold_marked_to_q _ ok _ _ k hk with hk' | hk'
    · exact absurd hk' (Finset.not_mem_empty k)
    · exact Or.inl hk'
  · intro k hk hlt hok
    exact floodFold_covers _ ok _ _ k hk hlt hok

lemma floodInit_phi (W H : ℕ) (ok : ℕ → Bool) :
    floodPhi (W * H) (floodInit W H ok) ≤ floodFuel W H := by
  have hlen := floodFold_len (W * H) ok (floodSeeds W H) ⟨∅, []⟩
  simp only [List.length_nil] at hlen
  unfold floodInit floodPhi floodFuel
  omega

/-- Either worklist discipline computes exactly the reachable set. -/
theorem floodBG_eq_reach (W H : ℕ) (ok : ℕ → Bool) (sel : List ℕ → ℕ × List ℕ)
    (hsel : selSpec sel) (i : ℕ) :
    i ∈ floodBG W H ok sel ↔ FloodReach W H ok i := by
  have hinv0 := floodInit_inv W H ok
  have hinvF := floodRun_inv W H ok sel hsel (floodFuel W H) _ hinv0
  have hempty := floodRun_empty_of_phi W H ok sel hsel (floodFuel W H) _ hinv0
    (floodInit_phi W H ok)
  unfold floodBG
  constructor
  · intro h
    exact hinvF.reach i h
  · intro hr
    induction hr with
    | seed j hs hlt hok => exact hinvF.seedsIn j hs hlt hok
    | push j k _ hk hklt hkok ihj =>
      rcases hinvF.closed j ihj with hq | hcl
      · rw [hempty] at hq
        cases hq
      · exact hcl k hk hklt hkok

lemma selSpec_selFIFO : selSpec selFIFO := by
  intro x l
  refine ⟨List.mem_cons_self x l, ?_, ?_, rfl⟩
  · intro k hk hne
    rcases List.mem_cons.mp hk with rfl | h
    · exact absurd rfl hne
    · exact h
  · intro k hk
    exact List.mem_cons_of_mem x hk

lemma selSpec_selLIFO : selSpec selLIFO := by
  intro x l
  have hne : (x :: l) ≠ [] := List.cons_ne_nil x l
  have hd : (selLIFO (x :: l)).1 = (x :: l).getLast hne := by
    show (x :: l).getLastD 0 = _
    rw [List.getLastD_eq_getLast?, List.getLast?_eq_getLast _ hne, Option.getD_some]
  have hsplit : (x :: l).dropLast ++ [(x :: l).getLast hne] = x :: l :=
    List.dropLast_append_getLast hne
  refine ⟨?_, ?_, ?_, ?_⟩
  · rw [hd]
    exact List.getLast_mem hne
  · intro k hk hne'
    show k ∈ (x :: l).dropLast
    rw [← hsplit] at hk
    rcases List.mem_append.mp hk with h | h
    · exact h
    · rcases List.mem_singleton.mp h with rfl
      rw [hd] at hne'
      exact absurd rfl hne'
  · intro k hk
    have : k ∈ (x :: l).dropLast := hk
    rw [← hsplit]
    exact List.mem_append_left _ this
  · show (x :: l).dropLast.length + 1 = (x :: l).length
    rw [List.length_dropLast]
    simp

/-- C7: the background set computed by the border flood fill does not depend
on the worklist discipline — the code's LIFO `q.pop()` and a FIFO `q.shift()`
yield the same final mask for every image and tolerance. -/
theorem flood_worklist_order_irrelevant (W H : ℕ) (img : ℕ → ℕ × ℕ × ℕ) (rawTol : Option ℚ) :
    bgMaskLIFO W H img rawTol = bgMaskFIFO W H img rawTol := by
  unfold bgMaskLIFO bgMaskFIFO
  ext i
  rw [floodBG_eq_reach W H _ selLIFO selSpec_selLIFO i,
    floodBG_eq_reach W H _ selFIFO selSpec_selFIFO i]

/-! ### Tolerance fallback (C3) and the all-white input (C4) -/

lemma effTolerance_le_255 (raw : Option ℚ) : effTolerance raw ≤ 255 := by
  unfold effTolerance
  exact max_le (by norm_num) (min_le_left 255 _)

lemma nearWhite_white (t : Option ℚ) :
    nearWhitePx whiteImg (effTolerance t) = fun _ => true := by
  funext i
  unfold nearWhitePx whiteImg
  simp only [decide_eq_true_eq]
  refine le_trans (effTolerance_le_255 t) ?_
  norm_num [luminance]

lemma nearWhite_black_zero :
    nearWhitePx blackImg (effTolerance (some 0)) = fun _ => false := by
  funext i
  unfold nearWhitePx blackImg
  simp only [decide_eq_false_iff_not]
  norm_num [luminance, effTolerance, jsOr]

/-- C3 counterexample: on a 1×1 pure-white image invoked with tolerance 0, the
single border pixel is near-white (the `|| 220` fallback makes the effective
tolerance 220 and luminance 255 ≥ 220), so the claim that no pixel qualifies
and the mask is empty is false. -/
theorem tolerance_zero_claim_false : ¬ toleranceZeroClaim := by
  intro h
  have h0 := (h 1 1 whiteImg).1 0
  have hw : nearWhitePx whiteImg (effTolerance (some 0)) 0 = true :=
    congrFun (nearWhite_white (some 0)) 0
  rw [hw] at h0
  cases h0

/-- C3 amended: a raw tolerance of 0 is falsy, so the effective tolerance is
the default 220; a pixel is near-white iff its luminance is ≥ 220.  On a 1×1
white image the mask is the whole canvas; on a 1×1 black image no pixel
qualifies, the mask is empty, and the removal is a valid no-op (an opaque
pixel keeps alpha 255), not an error. -/
theorem tolerance_zero_uses_default :
    effTolerance (some 0) = 220 ∧
    (∀ (img : ℕ → ℕ × ℕ × ℕ) (i : ℕ),
      nearWhitePx img (effTolerance (some 0)) i = true ↔
        220 ≤ luminance (img i).1 (img i).2.1 (img i).2.2) ∧
    bgMaskLIFO 1 1 whiteImg (some 0) = {0} ∧
    bgMaskLIFO 1 1 blackImg (some 0) = ∅ ∧
    cutoutAlphaStep5 1 1 blackImg (some 0) 2 (fun _ => 255) 0 = 255 := by
  have h220 : effTolerance (some 0) = 220 := by
    norm_num [effTolerance, jsOr]
  refine ⟨h220, ?_, ?_, ?_, ?_⟩
  · intro img i
    rw [h220]
    unfold nearWhitePx
    simp only [decide_eq_true_eq]
  · unfold bgMaskLIFO
    rw [nearWhite_white (some 0)]
    decide
  · unfold bgMaskLIFO
    rw [nearWhite_black_zero]
    decide
  · unfold cutoutAlphaStep5 cutoutBGMask bgMaskLIFO
    rw [nearWhite_black_zero]
    decide

/-- C4 counterexample: a 1×1 pure-white image with tolerance 250 (≤ 255) and
the default feather 2 keeps its pixel fully opaque after the segmentation
stage — the feather erosion treats out-of-canvas neighbors as non-background,
so the whole-canvas flood mask contracts to nothing and nothing is removed —
refuting the claim that the output alpha is 0 everywhere. -/
theorem white_transparent_claim_false : ¬ whiteAllTransparentClaim := by
  intro h
  have h0 := h 1 1 250 (by norm_num) 0 (by norm_num)
  have h255 : cutoutAlphaStep5 1 1 whiteImg (some 250) 2 (fun _ => 255) 0 = 255 := by
    unfold cutoutAlphaStep5 cutoutBGMask bgMaskLIFO
    rw [nearWhite_white (some 250)]
    decide
  rw [h255] at h0
  cases h0

lemma floodReach_lt (W H : ℕ) (ok : ℕ → Bool) (i : ℕ) (h : FloodReach W H ok i) :
    i < W * H := by
  induction h with
  | seed _ _ hlt _ => exact hlt
  | push _ _ _ _ hlt _ _ => exact hlt

lemma mem_floodSeeds_top (W H : ℕ) (x : ℕ) (hx : x < W) : x ∈ floodSeeds W H := by
  unfold floodSeeds
  refine List.mem_append_left _ ?_
  rw [List.mem_flatMap]
  exact ⟨x, List.mem_range.mpr hx, by simp⟩

/-- On an all-qualifying mask every pixel is border-reachable: walk straight
down the column from the top-row seed. -/
lemma reach_all_true (W H : ℕ) :
    ∀ y, y < H → ∀ x, x < W → FloodReach W H (fun _ => true) (y * W + x) := by
  intro y
  induction y with
  | zero =>
    intro hy x hx
    rw [Nat.zero_mul, Nat.zero_add]
    exact FloodReach.seed x (mem_floodSeeds_top W H x hx)
      (lt_of_lt_of_le hx (Nat.le_mul_of_pos_right W hy)) rfl
  | succ y ih =>
    intro hy x hx
    have hW : 0 < W := lt_of_le_of_lt (Nat.zero_le x) hx
    have hreach := ih (by omega) x hx
    refine FloodReach.push (y * W + x) ((y + 1) * W + x) hreach ?_ ?_ rfl
    · unfold floodNbrs
      have hdiv : (y * W + x) / W = y := by
        rw [Nat.add_comm (y * W) x, Nat.mul_comm y W, Nat.add_mul_div_left x y hW,
          Nat.div_eq_of_lt hx, Nat.zero_add]
      refine List.mem_append_right _ ?_
      rw [hdiv, if_pos (by omega : y < H - 1), List.mem_singleton]
      ring
    · calc (y + 1) * W + x < (y + 1) * W + W := by omega
        _ = (y + 2) * W := by ring
        _ ≤ H * W := Nat.mul_le_mul_right W (by omega)
        _ = W * H := Nat.mul_comm H W

lemma floodBG_true (W H : ℕ) (sel : List ℕ → ℕ × List ℕ) (hsel : selSpec sel) :
    floodBG W H (fun _ => true) sel = Finset.range (W * H) := by
  ext i
  rw [floodBG_eq_reach W H _ sel hsel, Finset.mem_range]
  constructor
  · exact floodReach_lt W H _ i
  · intro hi
    have hW : 0 < W := by
      rcases Nat.eq_zero_or_pos W with h | h
      · subst h
        simp at hi
      · exact h
    have hx : i % W < W := Nat.mod_lt i hW
    have hy : i / W < H := by
      rw [Nat.div_lt_iff_lt_mul hW]
      exact lt_of_lt_of_le hi (le_of_eq (Nat.mul_comm W H))
    have hreach := reach_all_true W H (i / W) hy (i % W) hx
    have hidx : i / W * W + i % W = i := by
      rw [Nat.mul_comm]
      exact Nat.div_add_mod i W
    exact hidx ▸ hreach

lemma allBgWithin_range (W H i : ℕ) :
    allBgWithin W H 2 (Finset.range (W * H)) i = true ↔
      (2 ≤ i % W ∧ i % W + 2 < W ∧ 2 ≤ i / W ∧ i / W + 2 < H) := by
  unfold allBgWithin
  simp only [decide_eq_true_eq, Finset.mem_range]
  constructor
  · intro h
    have h1 := h (-2) (by decide) 0 (by decide)
    have h2 := h 2 (by decide) 0 (by decide)
    have h3 := h 0 (by decide) (-2) (by decide)
    have h4 := h 0 (by decide) 2 (by decide)
    refine ⟨?_, ?_, ?_, ?_⟩
    · have := h3.2.2.1
      omega
    · have := h4.2.2.2.1
      omega
    · have := h1.1
      omega
    · have := h2.2.1
      omega
  · intro ⟨h1, h2, h3, h4⟩ dy hdy dx hdx
    rw [Finset.mem_Icc] at hdy hdx
    have ha0 : (0 : ℤ) ≤ (i / W : ℕ) + dy := by omega
    have haH : ((i / W : ℕ) : ℤ) + dy < H := by omega
    have hb0 : (0 : ℤ) ≤ (i % W : ℕ) + dx := by omega
    have hbW : ((i % W : ℕ) : ℤ) + dx < W := by omega
    refine ⟨ha0, haH, hb0, hbW, ?_⟩
    have hne : W * H ≠ 0 := Nat.mul_ne_zero (by omega) (by omega)
    rw [Int.toNat_lt' hne]
    have hle : (((i / W : ℕ) : ℤ) + dy) * W ≤ ((H : ℤ) - 1) * W :=
      mul_le_mul_of_nonneg_right (by omega) (by omega)
    have hb1 : ((i % W : ℕ) : ℤ) + dx ≤ (W : ℤ) - 1 := by omega
    have hcast : ((W * H : ℕ) : ℤ) = (W : ℤ) * H := by push_cast; ring
    rw [hcast]
    nlinarith [hle, hb1]

lemma featherBG_range_mem (W H i : ℕ) (hi : i < W * H) :
    i ∈ featherBG W H 2 (Finset.range (W * H)) ↔
      (2 ≤ i % W ∧ i % W + 2 < W ∧ 2 ≤ i / W ∧ i / W + 2 < H) := by
  unfold featherBG
  rw [if_neg (by omega : (2 : ℕ) ≠ 0), Finset.mem_filter]
  constructor
  · rintro ⟨-, -, hall⟩
    exact (allBgWithin_range W H i).mp hall
  · intro h
    exact ⟨Finset.mem_range.mpr hi, Finset.mem_range.mpr hi, (allBgWithin_range W H i).mpr h⟩

/-- C4 amended: on an all-pure-white opaque input of any size, for every raw
tolerance `t ≤ 255` and the default feather 2, the segmentation stage zeroes
the alpha of exactly the pixels whose full Chebyshev-radius-2 neighborhood
lies inside the canvas; every pixel within 2 of the canvas border stays fully
opaque. -/
theorem white_input_frame_remains (W H : ℕ) (t : ℚ) (_ht : t ≤ 255) :
    effFeather (some 2) = 2 ∧
    ∀ i < W * H, cutoutAlphaStep5 W H whiteImg (some t) 2 (fun _ => 255) i =
      if 2 ≤ i % W ∧ i % W + 2 < W ∧ 2 ≤ i / W ∧ i / W + 2 < H then 0 else 255 := by
  refine ⟨by norm_num [effFeather, jsOr], ?_⟩
  intro i hi
  unfold cutoutAlphaStep5 cutoutBGMask bgMaskLIFO
  rw [nearWhite_white (some t), floodBG_true W H selLIFO selSpec_selLIFO]
  by_cases hc : 2 ≤ i % W ∧ i % W + 2 < W ∧ 2 ≤ i / W ∧ i / W + 2 < H
  · rw [if_pos hc, decide_eq_true ((featherBG_range_mem W H i hi).mpr hc)]
    rfl
  · rw [if_neg hc,
      decide_eq_false (fun h => hc ((featherBG_range_mem W H i hi).mp h))]
    rfl

/-- C4 amended, witness on a 6×6 canvas at tolerance 230: interior pixel 14
becomes transparent, border pixel 0 stays opaque. -/
theorem white_input_frame_remains_witness :
    cutoutAlphaStep5 6 6 whiteImg (some 230) 2 (fun _ => 255) 14 = 0 ∧
    cutoutAlphaStep5 6 6 whiteImg (some 230) 2 (fun _ => 255) 0 = 255 := by
  obtain ⟨-, h2⟩ := white_input_frame_remains 6 6 230 (by norm_num)
  constructor
  · have h := h2 14 (by norm_num)
    norm_num at h
    exact h
  · have h := h2 0 (by norm_num)
    norm_num at h
    exact h

/-! ### Connected-component selection (C6) -/

lemma compFold_opq (opq : ℕ → Bool) :
    ∀ (ns : List ℕ) (st : CState),
      (∀ k ∈ st.q, opq k = true) → (∀ k ∈ st.comp, opq k = true) →
      (∀ k ∈ (ns.foldl (compPush opq) st).q, opq k = true) ∧
      (∀ k ∈ (ns.foldl (compPush opq) st).comp, opq k = true) := by
  intro ns
  induction ns with
  | nil => intro st hq hc; exact ⟨hq, hc⟩
  | cons a t ih =>
    intro st hq hc
    rw [List.foldl_cons]
    apply ih
    · intro k hk
      unfold compPush at hk
      split_ifs at hk with h
      · rcases List.mem_append.mp hk with hk' | hk'
        · exact hq k hk'
        · rcases List.mem_singleton.mp hk' with rfl
          exact h.1
      · exact hq k hk
    · intro k hk
      unfold compPush at hk
      split_ifs at hk with h
      · exact hc k hk
      · exact hc k hk

lemma compStep_opq (W H : ℕ) (opq : ℕ → Bool) (s : CState)
    (hq : ∀ k ∈ s.q, opq k = true) (hc : ∀ k ∈ s.comp, opq k = true) :
    (∀ k ∈ (compStep W H opq s).q, opq k = true) ∧
    (∀ k ∈ (compStep W H opq s).comp, opq k = true) := by
  obtain ⟨vis, q, comp⟩ := s
  cases q with
  | nil => exact ⟨hq, hc⟩
  | cons curr rest =>
    apply compFold_opq opq (nbrs8 W H curr)
    · intro k hk
      exact hq k (List.mem_cons_of_mem curr hk)
    · intro k hk
      rcases Finset.mem_insert.mp hk with rfl | hk'
      · exact hq k (List.mem_cons_self _ _)
      · exact hc k hk'

lemma compRun_opq (W H : ℕ) (opq : ℕ → Bool) :
    ∀ (n : ℕ) (s : CState),
      (∀ k ∈ s.q, opq k = true) → (∀ k ∈ s.comp, opq k = true) →
      (∀ k ∈ (compRun W H opq n s).q, opq k = true) ∧
      (∀ k ∈ (compRun W H opq n s).comp, opq k = true) := by
  intro n
  induction n with
  | zero => intro s hq hc; exact ⟨hq, hc⟩
  | succ n ih =>
    intro s hq hc
    rw [compRun]
    obtain ⟨hq', hc'⟩ := compStep_opq W H opq s hq hc
    exact ih _ hq' hc'

lemma bfsComp_opq (W H : ℕ) (opq : ℕ → Bool) (vis0 : Finset ℕ) (i : ℕ)
    (hi : opq i = true) : ∀ j ∈ (bfsComp W H opq vis0 i).2, opq j = true := by
  unfold bfsComp
  refine (compRun_opq W H opq (compFuel W H) ⟨insert i vis0, [i], ∅⟩ ?_ ?_).2
  · intro k hk
    rcases List.mem_singleton.mp hk with rfl
    exact hi
  · intro k hk
    cases hk

lemma discover_facts (W H : ℕ) (opq : ℕ → Bool) :
    ∀ c ∈ discoverComponents W H opq, 10 < c.card ∧ ∀ j ∈ c, opq j = true := by
  unfold discoverComponents
  suffices haux : ∀ (l : List ℕ) (acc : Finset ℕ × List (Finset ℕ)),
      (∀ c ∈ acc.2, 10 < c.card ∧ ∀ j ∈ c, opq j = true) →
      ∀ c ∈ (l.foldl (fun acc i =>
        if opq i = true ∧ i ∉ acc.1 then
          ((bfsComp W H opq acc.1 i).1,
            if 10 < (bfsComp W H opq acc.1 i).2.card then acc.2 ++ [(bfsComp W H opq acc.1 i).2]
            else acc.2)
        else acc) acc).2, 10 < c.card ∧ ∀ j ∈ c, opq j = true by
    exact haux (List.range (W * H)) (∅, []) (by intro c hc; cases hc)
  intro l
  induction l with
  | nil => intro acc hacc; exact hacc
  | cons a t ih =>
    intro acc hacc
    rw [List.foldl_cons]
    apply ih
    by_cases h : opq a = true ∧ a ∉ acc.1
    · rw [if_pos h]
      by_cases h10 : 10 < (bfsComp W H opq acc.1 a).2.card
      · rw [if_pos h10]
        intro c hc
        rcases List.mem_append.mp hc with hc' | hc'
        · exact hacc c hc'
        · rcases List.mem_singleton.mp hc' with rfl
          exact ⟨h10, bfsComp_opq W H opq acc.1 a h.1⟩
      · rw [if_neg h10]
        exact hacc
    · rw [if_neg h]
      exact hacc

lemma selectLargest_first_max :
    ∀ (l : List (Finset ℕ)) (acc : Option (Finset ℕ) × ℕ),
      ((∀ c ∈ l, c.card ≤ acc.2) ∧
        l.foldl (fun acc c => if acc.2 < c.card then (some c, c.card) else acc) acc = acc) ∨
      (∃ pre C post, l = pre ++ C :: post ∧ acc.2 < C.card ∧
        (∀ c ∈ pre, c.card < C.card) ∧ (∀ c ∈ post, c.card ≤ C.card) ∧
        l.foldl (fun acc c => if acc.2 < c.card then (some c, c.card) else acc) acc =
          (some C, C.card)) := by
  intro l
  induction l with
  | nil =>
    intro acc
    left
    refine ⟨?_, rfl⟩
    intro c hc
    cases hc
  | cons c t ih =>
    intro acc
    rw [List.foldl_cons]
    by_cases hc : acc.2 < c.card
    · rw [if_pos hc]
      rcases ih (some c, c.card) with ⟨hall, heq⟩ | ⟨pre, C, post, heq, hgt, hpre, hpost, hres⟩
      · right
        refine ⟨[], c, t, rfl, hc, ?_, ?_, heq⟩
        · intro c' hc'
          cases hc'
        · intro c' hc'
          exact hall c' hc'
      · right
        refine ⟨c :: pre, C, post, ?_, lt_trans hc hgt, ?_, hpost, hres⟩
        · rw [heq, List.cons_append]
        · intro c' hc'
          rcases List.mem_cons.mp hc' with rfl | h
          · exact hgt
          · exact hpre c' h
    · rw [if_neg hc]
      rcases ih acc with ⟨hall, heq⟩ | ⟨pre, C, post, heq, hgt, hpre, hpost, hres⟩
      · left
        refine ⟨?_, heq⟩
        intro c' hc'
        rcases List.mem_cons.mp hc' with rfl | h
        · exact not_lt.mp hc
        · exact hall c' h
      · right
        refine ⟨c :: pre, C, post, ?_, hgt, ?_, hpost, hres⟩
        · rw [heq, List.cons_append]
        · intro c' hc'
          rcases List.mem_cons.mp hc' with rfl | h
          · exact lt_of_le_of_lt (not_lt.mp hc) hgt
          · exact hpre c' h

/-- C6: among the retained components (discovered in scan order — rows
top-to-bottom, columns left-to-right — with only sizes `> 10` kept), the
selection keeps the first component in discovery order whose size equals the
maximum (strict `>` in the fold means ties keep the earlier component), and
step 9 forces the alpha of every pixel of every other component to 0. -/
theorem largest_component_selection (W H : ℕ) (cleaned : ℕ → ℕ)
    (hne : discoverComponents W H (fun i => decide (128 < cleaned i)) ≠ []) :
    ∃ (C : Finset ℕ) (pre post : List (Finset ℕ)),
      discoverComponents W H (fun i => decide (128 < cleaned i)) = pre ++ C :: post ∧
      (selectLargest (discoverComponents W H (fun i => decide (128 < cleaned i)))).1 = some C ∧
      (∀ c ∈ pre, c.card < C.card) ∧
      (∀ c ∈ discoverComponents W H (fun i => decide (128 < cleaned i)), c.card ≤ C.card) ∧
      (∀ c ∈ discoverComponents W H (fun i => decide (128 < cleaned i)), ∀ i ∈ c, i ∉ C →
        keepLargestAlpha cleaned
          (selectLargest (discoverComponents W H (fun i => decide (128 < cleaned i)))).1 i
          = 0) := by
  set comps := discoverComponents W H (fun i => decide (128 < cleaned i)) with hcompsdef
  have hfacts := discover_facts W H (fun i => decide (128 < cleaned i))
  rcases selectLargest_first_max comps (none, 0) with ⟨hall, -⟩ |
    ⟨pre, C, post, heq, -, hpre, hpost, hres⟩
  · obtain ⟨c, hc⟩ := List.exists_mem_of_ne_nil comps hne
    have h10 := (hfacts c hc).1
    have h0 := hall c hc
    simp only at h0
    omega
  · have hsel : (selectLargest comps).1 = some C := by
      unfold selectLargest
      rw [hres]
    refine ⟨C, pre, post, heq, hsel, hpre, ?_, ?_⟩
    · intro c hc
      rw [heq] at hc
      rcases List.mem_append.mp hc with h | h
      · exact le_of_lt (hpre c h)
      · rcases List.mem_cons.mp h with rfl | h'
        · exact le_refl _
        · exact hpost c h'
    · intro c hc i hi hiC
      have hopq := (hfacts c hc).2 i hi
      have h128 : 128 < cleaned i := of_decide_eq_true hopq
      rw [hsel]
      simp only [keepLargestAlpha]
      rw [if_pos ⟨(by omega : 50 < cleaned i), hiC⟩]

set_option maxRecDepth 1000000 in
/-- C6 witness: a 7×4 canvas with two disjoint 12-pixel components (columns
0–2 and 4–6); the earlier-scanned left component is kept (it contains pixel 0)
and pixel 25 of the right component is zeroed. -/
theorem largest_component_selection_witness :
    0 ∈ ((selectLargest (discoverComponents 7 4 (fun i => decide (128 < cl74 i)))).1.getD ∅) ∧
    25 ∉ ((selectLargest (discoverComponents 7 4 (fun i => decide (128 < cl74 i)))).1.getD ∅) ∧
    keepLargestAlpha cl74
      (selectLargest (discoverComponents 7 4 (fun i => decide (128 < cl74 i)))).1 25 = 0 := by
  have h0in : 0 ∈ ((selectLargest (discoverComponents 7 4
      (fun i => decide (128 < cl74 i)))).1.getD ∅) := by decide
  have h25n : 25 ∉ ((selectLargest (discoverComponents 7 4
      (fun i => decide (128 < cl74 i)))).1.getD ∅) := by decide
  obtain ⟨C, pre, post, -, hsel, -, -, hzero⟩ :=
    largest_component_selection 7 4 cl74 (by decide)
  refine ⟨h0in, h25n, ?_⟩
  have h25C : 25 ∉ C := by
    rw [hsel] at h25n
    simpa using h25n
  have hex : ∃ c ∈ discoverComponents 7 4 (fun i => decide (128 < cl74 i)), 25 ∈ c := by
    decide
  obtain ⟨c, hc, h25⟩ := hex
  exact hzero c hc 25 h25 h25C

/-! ### Exactness of the two-pass chamfer transform for a single interior seed

Plan: the octile metric `octile` satisfies the triangle inequality for the
eight chamfer steps, so a "value ≥ min(distance, sentinel)" invariant survives
every update (lower bound); and since each pass writes every interior cell
exactly once in scan order, the final field satisfies one inequality per
neighbor, which chained along a canonical monotone staircase path yields
"value ≤ distance" whenever the staircase fits in the interior (upper
bound). -/

lemma one_le_sqrt2 : (1 : ℝ) ≤ Real.sqrt 2 := by
  rw [show (1 : ℝ) = Real.sqrt 1 from (Real.sqrt_one).symm]
  exact Real.sqrt_le_sqrt (by norm_num)

lemma sqrt2_le_two : Real.sqrt 2 ≤ 2 := by
  nlinarith [Real.sq_sqrt (show (0 : ℝ) ≤ 2 by norm_num), Real.sqrt_nonneg 2]

lemma octile_nonneg (a b : ℝ) : 0 ≤ octile a b := by
  unfold octile
  have h1 : (0 : ℝ) ≤ max |a| |b| := le_trans (abs_nonneg a) (le_max_left _ _)
  have h2 : (0 : ℝ) ≤ min |a| |b| := le_min (abs_nonneg a) (abs_nonneg b)
  nlinarith [one_le_sqrt2]

lemma octile_zero : octile 0 0 = 0 := by
  norm_num [octile]

lemma octile_eq_comb (a b : ℝ) :
    octile a b = (Real.sqrt 2 - 1) * (|a| + |b|) + (2 - Real.sqrt 2) * max |a| |b| := by
  rcases le_total |a| |b| with h | h
  · rw [octile, max_eq_right h, min_eq_left h]
    ring
  · rw [octile, max_eq_left h, min_eq_right h]
    ring

lemma max_abs_add (a b u v : ℝ) : max |a + u| |b + v| ≤ max |a| |b| + max |u| |v| := by
  apply max_le
  · exact le_trans (abs_add a u) (add_le_add (le_max_left _ _) (le_max_left _ _))
  · exact le_trans (abs_add b v) (add_le_add (le_max_right _ _) (le_max_right _ _))

lemma octile_triangle (a b u v : ℝ) : octile (a + u) (b + v) ≤ octile a b + octile u v := by
  rw [octile_eq_comb, octile_eq_comb a b, octile_eq_comb u v]
  have h1 : |a + u| + |b + v| ≤ (|a| + |b|) + (|u| + |v|) := by
    linarith [abs_add a u, abs_add b v]
  have h2 := max_abs_add a b u v
  have hs1 : (0 : ℝ) ≤ Real.sqrt 2 - 1 := by linarith [one_le_sqrt2]
  have hs2 : (0 : ℝ) ≤ 2 - Real.sqrt 2 := by linarith [sqrt2_le_two]
  nlinarith [mul_le_mul_of_nonneg_left h1 hs1, mul_le_mul_of_nonneg_left h2 hs2]

lemma octile_unit (u v : ℝ) (hu : |u| = 1) (hv : |v| = 0) : octile u v = 1 := by
  rw [octile, hu, hv]
  norm_num

lemma octile_unit' (u v : ℝ) (hu : |u| = 0) (hv : |v| = 1) : octile u v = 1 := by
  rw [octile, hu, hv]
  norm_num

lemma octile_diag (u v : ℝ) (hu : |u| = 1) (hv : |v| = 1) : octile u v = Real.sqrt 2 := by
  rw [octile, hu, hv]
  norm_num

lemma octile_formula (a b : ℝ) :
    octile a b = min |a| |b| * Real.sqrt 2 + (max |a| |b| - min |a| |b|) := by
  rw [octile]
  ring

lemma octile_tri' (X Y u v : ℝ) : octile X Y ≤ octile (X - u) (Y - v) + octile u v := by
  have h := octile_triangle (X - u) (Y - v) u v
  simpa using h

lemma lb_step (A A' B S w : ℝ) (h : min A' S ≤ B) (htri : A ≤ A' + w) (hw : 0 ≤ w) :
    min A S ≤ B + w := by
  rcases min_le_iff.mp h with h' | h'
  · exact le_trans (min_le_left A S) (by linarith)
  · exact le_trans (min_le_right A S) (by linarith)

lemma r2valQ_addOne (p : ℚ × ℚ) : r2valQ (addOne p) = r2valQ p + 1 := by
  unfold addOne r2valQ
  push_cast
  ring

lemma r2valQ_addSqrt2 (p : ℚ × ℚ) : r2valQ (addSqrt2 p) = r2valQ p + Real.sqrt 2 := by
  unfold addSqrt2 r2valQ
  push_cast
  ring

lemma rmin5_val (a b c d e : ℚ × ℚ) :
    r2valQ (rmin (rmin (rmin (rmin a b) c) d) e) =
      min (min (min (min (r2valQ a) (r2valQ b)) (r2valQ c)) (r2valQ d)) (r2valQ e) := by
  rw [rminQ_val, rminQ_val, rminQ_val, rminQ_val]

lemma dfGet_set_ne (df : List (ℚ × ℚ)) (k i : ℕ) (v : ℚ × ℚ) (h : k ≠ i) :
    dfGet (df.set k v) i = dfGet df i := by
  unfold dfGet
  rw [List.getD_eq_getElem?_getD, List.getD_eq_getElem?_getD, List.getElem?_set_ne h]

lemma dfGet_set_self (df : List (ℚ × ℚ)) (k : ℕ) (v : ℚ × ℚ) (h : k < df.length) :
    dfGet (df.set k v) k = v := by
  unfold dfGet
  rw [List.getD_eq_getElem?_getD, List.getElem?_set_eq_of_lt _ h]
  rfl

lemma initDF_length (W H : ℕ) (s : ℚ) (mask : ℕ → Bool) :
    (initDF W H s mask).length = W * H := by
  simp [initDF]

lemma initDF_get (W H : ℕ) (s : ℚ) (mask : ℕ → Bool) (i : ℕ) (hi : i < W * H) :
    dfGet (initDF W H s mask) i = if mask i then ((0 : ℚ), (0 : ℚ)) else (s * 2, 0) := by
  unfold initDF dfGet
  rw [List.getD_eq_getElem?_getD, List.getElem?_map, List.getElem?_range hi]
  rfl

lemma idx_mod (W y x : ℕ) (hx : x < W) : (y * W + x) % W = x := by
  rw [Nat.add_comm, Nat.add_mul_mod_self_right, Nat.mod_eq_of_lt hx]

lemma idx_div (W y x : ℕ) (hx : x < W) : (y * W + x) / W = y := by
  have hW : 0 < W := lt_of_le_of_lt (Nat.zero_le x) hx
  rw [Nat.add_comm (y * W) x, Nat.mul_comm y W, Nat.add_mul_div_left x y hW,
    Nat.div_eq_of_lt hx, Nat.zero_add]

lemma key_lt_size (W H y x : ℕ) (hy : y + 1 ≤ H) (hx : x < W) : y * W + x < W * H := by
  calc y * W + x < y * W + W := by omega
    _ = (y + 1) * W := by ring
    _ ≤ H * W := Nat.mul_le_mul_right W hy
    _ = W * H := Nat.mul_comm H W

lemma key_lt_fwd (W y x : ℕ) (hy : 1 ≤ y) (hx : 1 ≤ x) (hxW : x + 1 < W) :
    (y - 1) * W + (x - 1) < y * W + x ∧ (y - 1) * W + x < y * W + x ∧
      (y - 1) * W + (x + 1) < y * W + x ∧ y * W + (x - 1) < y * W + x := by
  obtain ⟨y', rfl⟩ := Nat.exists_eq_add_of_le hy
  obtain ⟨x', rfl⟩ := Nat.exists_eq_add_of_le hx
  have e1 : 1 + y' - 1 = y' := by omega
  have e2 : 1 + x' - 1 = x' := by omega
  have e3 : (1 + y') * W = W + y' * W := by ring
  rw [e1, e2, e3]
  refine ⟨?_, ?_, ?_, ?_⟩ <;> omega

lemma key_gt_bwd (W y x : ℕ) (hx1 : 1 ≤ x) (hxW : x + 1 < W) :
    y * W + x < y * W + (x + 1) ∧ y * W + x < (y + 1) * W + (x - 1) ∧
      y * W + x < (y + 1) * W + x ∧ y * W + x < (y + 1) * W + (x + 1) := by
  obtain ⟨x', rfl⟩ := Nat.exists_eq_add_of_le hx1
  have e2 : 1 + x' - 1 = x' := by omega
  have e3 : (y + 1) * W = y * W + W := by ring
  rw [e2, e3]
  refine ⟨?_, ?_, ?_, ?_⟩ <;> omega

lemma mem_fwdIndices (W H a b : ℕ) :
    (a, b) ∈ fwdIndices W H ↔ 1 ≤ a ∧ a + 1 < H ∧ 1 ≤ b ∧ b + 1 < W := by
  unfold fwdIndices
  simp only [List.mem_flatMap, List.mem_map, List.mem_range, Prod.mk.injEq]
  constructor
  · rintro ⟨y, hy, x, hx, rfl, rfl⟩
    omega
  · rintro ⟨h1, h2, h3, h4⟩
    exact ⟨a - 1, by omega, b - 1, by omega, by omega, by omega⟩

lemma bwdIndices_eq_reverse (W H : ℕ) : bwdIndices W H = (fwdIndices W H).reverse := by
  unfold bwdIndices fwdIndices
  rw [List.reverse_flatMap]
  congr 1
  funext y
  simp [Function.comp, List.map_reverse]

lemma mem_bwdIndices (W H a b : ℕ) :
    (a, b) ∈ bwdIndices W H ↔ 1 ≤ a ∧ a + 1 < H ∧ 1 ≤ b ∧ b + 1 < W := by
  rw [bwdIndices_eq_reverse, List.mem_reverse]
  exact mem_fwdIndices W H a b

lemma pairwise_fwdIndices (W H : ℕ) :
    (fwdIndices W H).Pairwise (fun p q => p.1 * W + p.2 < q.1 * W + q.2) := by
  unfold fwdIndices
  rw [List.pairwise_flatMap]
  constructor
  · intro y _
    rw [List.pairwise_map]
    refine List.Pairwise.imp ?_ (List.pairwise_lt_range (W - 2))
    intro a b hab
    dsimp only
    omega
  · refine List.Pairwise.imp ?_ (List.pairwise_lt_range (H - 2))
    intro y1 y2 h12 p hp q hq
    simp only [List.mem_map, List.mem_range] at hp hq
    obtain ⟨a, ha, rfl⟩ := hp
    obtain ⟨b, hb, rfl⟩ := hq
    have h1 : (y1 + 1) * W + (a + 1) < (y1 + 2) * W := by
      have e : (y1 + 2) * W = (y1 + 1) * W + W := by ring
      rw [e]
      omega
    have h2 : (y1 + 2) * W ≤ (y2 + 1) * W := Nat.mul_le_mul_right W (by omega)
    exact lt_of_lt_of_le (lt_of_lt_of_le h1 h2) (Nat.le_add_right _ _)

lemma pairwise_bwdIndices (W H : ℕ) :
    (bwdIndices W H).Pairwise (fun p q => q.1 * W + q.2 < p.1 * W + p.2) := by
  rw [bwdIndices_eq_reverse, List.pairwise_reverse]
  exact pairwise_fwdIndices W H


lemma min5_le_parts (a b c d e : ℝ) :
    min (min (min (min a b) c) d) e ≤ a ∧ min (min (min (min a b) c) d) e ≤ b ∧
      min (min (min (min a b) c) d) e ≤ c ∧ min (min (min (min a b) c) d) e ≤ d ∧
      min (min (min (min a b) c) d) e ≤ e := by
  refine ⟨?_, ?_, ?_, ?_, ?_⟩ <;> simp [min_le_iff]

/-- Write-once analysis of the forward pass fold: over a list of interior
scan positions with strictly increasing row-major keys, the fold keeps the
field length, leaves unlisted keys untouched, and at each listed position the
final value is at most the pre-fold value there and at most each final
{up-left, up, up-right, left} neighbor value plus its edge weight. -/
lemma fwd_fold_props (W H : ℕ) :
    ∀ (l : List (ℕ × ℕ)) (df0 : List (ℚ × ℚ)),
      df0.length = W * H →
      l.Pairwise (fun p q => p.1 * W + p.2 < q.1 * W + q.2) →
      (∀ p ∈ l, 1 ≤ p.1 ∧ p.1 + 1 < H ∧ 1 ≤ p.2 ∧ p.2 + 1 < W) →
      (l.foldl (fwdUpdate W) df0).length = W * H ∧
      (∀ j, (∀ p ∈ l, p.1 * W + p.2 ≠ j) →
          dfGet (l.foldl (fwdUpdate W) df0) j = dfGet df0 j) ∧
      (∀ p ∈ l,
        dfVal (l.foldl (fwdUpdate W) df0) (p.1 * W + p.2) ≤ dfVal df0 (p.1 * W + p.2) ∧
        dfVal (l.foldl (fwdUpdate W) df0) (p.1 * W + p.2) ≤
          dfVal (l.foldl (fwdUpdate W) df0) ((p.1 - 1) * W + (p.2 - 1)) + Real.sqrt 2 ∧
        dfVal (l.foldl (fwdUpdate W) df0) (p.1 * W + p.2) ≤
          dfVal (l.foldl (fwdUpdate W) df0) ((p.1 - 1) * W + p.2) + 1 ∧
        dfVal (l.foldl (fwdUpdate W) df0) (p.1 * W + p.2) ≤
          dfVal (l.foldl (fwdUpdate W) df0) ((p.1 - 1) * W + (p.2 + 1)) + Real.sqrt 2 ∧
        dfVal (l.foldl (fwdUpdate W) df0) (p.1 * W + p.2) ≤
          dfVal (l.foldl (fwdUpdate W) df0) (p.1 * W + (p.2 - 1)) + 1) := by
  intro l
  induction l with
  | nil =>
    intro df0 hlen _ _
    exact ⟨hlen, fun j _ => rfl, fun p hp => absurd hp (List.not_mem_nil p)⟩
  | cons p rest ih =>
    intro df0 hlen hpw hint
    obtain ⟨y, x⟩ := p
    rw [List.pairwise_cons] at hpw
    obtain ⟨hhead, hrest⟩ := hpw
    obtain ⟨hy1, hyH, hx1, hxW⟩ := hint (y, x) (List.mem_cons_self _ _)
    dsimp only at hhead ⊢
    have hkey : y * W + x < W * H := key_lt_size W H y x (by omega) (by omega)
    obtain ⟨hn1, hn2, hn3, hn4⟩ := key_lt_fwd W y x hy1 hx1 hxW
    set v : ℚ × ℚ := rmin (rmin (rmin (rmin (dfGet df0 (y * W + x))
        (addSqrt2 (dfGet df0 ((y - 1) * W + (x - 1)))))
        (addOne (dfGet df0 ((y - 1) * W + x))))
        (addSqrt2 (dfGet df0 ((y - 1) * W + (x + 1)))))
        (addOne (dfGet df0 (y * W + (x - 1)))) with hv
    have hupd : fwdUpdate W df0 (y, x) = df0.set (y * W + x) v := rfl
    have hfold : List.foldl (fwdUpdate W) df0 ((y, x) :: rest) =
        List.foldl (fwdUpdate W) (df0.set (y * W + x) v) rest := by
      rw [List.foldl_cons, hupd]
    have hlen1 : (df0.set (y * W + x) v).length = W * H := by
      rw [List.length_set, hlen]
    obtain ⟨ihlen, ihun, ihper⟩ := ih (df0.set (y * W + x) v) hlen1 hrest
      (fun q hq => hint q (List.mem_cons_of_mem _ hq))
    refine ⟨by rw [hfold]; exact ihlen, ?_, ?_⟩
    · intro j hj
      rw [hfold, ihun j (fun q hq => hj q (List.mem_cons_of_mem _ hq)),
        dfGet_set_ne df0 (y * W + x) j v (hj (y, x) (List.mem_cons_self _ _))]
    · intro q hq
      rw [List.mem_cons] at hq
      rcases hq with hq | hq
      · subst hq
        dsimp only
        have hFi : dfGet (List.foldl (fwdUpdate W) df0 ((y, x) :: rest)) (y * W + x) = v := by
          rw [hfold, ihun (y * W + x) (fun r hr => ne_of_gt (hhead r hr))]
          exact dfGet_set_self df0 (y * W + x) v (by rw [hlen]; exact hkey)
        have hFn1 : dfGet (List.foldl (fwdUpdate W) df0 ((y, x) :: rest))
            ((y - 1) * W + (x - 1)) = dfGet df0 ((y - 1) * W + (x - 1)) := by
          rw [hfold, ihun _ (fun r hr => ne_of_gt (lt_trans hn1 (hhead r hr))),
            dfGet_set_ne df0 _ _ v (ne_of_gt hn1)]
        have hFn2 : dfGet (List.foldl (fwdUpdate W) df0 ((y, x) :: rest))
            ((y - 1) * W + x) = dfGet df0 ((y - 1) * W + x) := by
          rw [hfold, ihun _ (fun r hr => ne_of_gt (lt_trans hn2 (hhead r hr))),
            dfGet_set_ne df0 _ _ v (ne_of_gt hn2)]
        have hFn3 : dfGet (List.foldl (fwdUpdate W) df0 ((y, x) :: rest))
            ((y - 1) * W + (x + 1)) = dfGet df0 ((y - 1) * W + (x + 1)) := by
          rw [hfold, ihun _ (fun r hr => ne_of_gt (lt_trans hn3 (hhead r hr))),
            dfGet_set_ne df0 _ _ v (ne_of_gt hn3)]
        have hFn4 : dfGet (List.foldl (fwdUpdate W) df0 ((y, x) :: rest))
            (y * W + (x - 1)) = dfGet df0 (y * W + (x - 1)) := by
          rw [hfold, ihun _ (fun r hr => ne_of_gt (lt_trans hn4 (hhead r hr))),
            dfGet_set_ne df0 _ _ v (ne_of_gt hn4)]
        have hvv : r2valQ v =
            min (min (min (min (r2valQ (dfGet df0 (y * W + x)))
              (r2valQ (dfGet df0 ((y - 1) * W + (x - 1))) + Real.sqrt 2))
              (r2valQ (dfGet df0 ((y - 1) * W + x)) + 1))
              (r2valQ (dfGet df0 ((y - 1) * W + (x + 1))) + Real.sqrt 2))
              (r2valQ (dfGet df0 (y * W + (x - 1))) + 1) := by
          rw [hv, rmin5_val]
          simp only [r2valQ_addOne, r2valQ_addSqrt2]
        obtain ⟨m1, m2, m3, m4, m5⟩ := min5_le_parts (r2valQ (dfGet df0 (y * W + x)))
          (r2valQ (dfGet df0 ((y - 1) * W + (x - 1))) + Real.sqrt 2)
          (r2valQ (dfGet df0 ((y - 1) * W + x)) + 1)
          (r2valQ (dfGet df0 ((y - 1) * W + (x + 1))) + Real.sqrt 2)
          (r2valQ (dfGet df0 (y * W + (x - 1))) + 1)
        refine ⟨?_, ?_, ?_, ?_, ?_⟩ <;> simp only [dfVal]
        · rw [hFi, hvv]
          exact m1
        · rw [hFi, hFn1, hvv]
          exact m2
        · rw [hFi, hFn2, hvv]
          exact m3
        · rw [hFi, hFn3, hvv]
          exact m4
        · rw [hFi, hFn4, hvv]
          exact m5
      · have hq' := ihper q hq
        have hneq : y * W + x ≠ q.1 * W + q.2 := ne_of_lt (hhead q hq)
        have hset : dfGet (df0.set (y * W + x) v) (q.1 * W + q.2) =
            dfGet df0 (q.1 * W + q.2) := dfGet_set_ne df0 _ _ v hneq
        refine ⟨?_, ?_, ?_, ?_, ?_⟩
        · rw [hfold]
          refine le_trans hq'.1 ?_
          simp only [dfVal]
          rw [hset]
        · rw [hfold]
          exact hq'.2.1
        · rw [hfold]
          exact hq'.2.2.1
        · rw [hfold]
          exact hq'.2.2.2.1
        · rw [hfold]
          exact hq'.2.2.2.2

/-- Write-once analysis of the backward pass fold: over interior scan
positions with strictly decreasing row-major keys, the fold keeps the length,
leaves unlisted keys untouched, and at each listed position the final value is
at most the pre-fold value there and at most each final {right, down-left,
down, down-right} neighbor value plus its edge weight. -/
lemma bwd_fold_props (W H : ℕ) :
    ∀ (l : List (ℕ × ℕ)) (df0 : List (ℚ × ℚ)),
      df0.length = W * H →
      l.Pairwise (fun p q => q.1 * W + q.2 < p.1 * W + p.2) →
      (∀ p ∈ l, 1 ≤ p.1 ∧ p.1 + 1 < H ∧ 1 ≤ p.2 ∧ p.2 + 1 < W) →
      (l.foldl (bwdUpdate W) df0).length = W * H ∧
      (∀ j, (∀ p ∈ l, p.1 * W + p.2 ≠ j) →
          dfGet (l.foldl (bwdUpdate W) df0) j = dfGet df0 j) ∧
      (∀ p ∈ l,
        dfVal (l.foldl (bwdUpdate W) df0) (p.1 * W + p.2) ≤ dfVal df0 (p.1 * W + p.2) ∧
        dfVal (l.foldl (bwdUpdate W) df0) (p.1 * W + p.2) ≤
          dfVal (l.foldl (bwdUpdate W) df0) (p.1 * W + (p.2 + 1)) + 1 ∧
        dfVal (l.foldl (bwdUpdate W) df0) (p.1 * W + p.2) ≤
          dfVal (l.foldl (bwdUpdate W) df0) ((p.1 + 1) * W + (p.2 - 1)) + Real.sqrt 2 ∧
        dfVal (l.foldl (bwdUpdate W) df0) (p.1 * W + p.2) ≤
          dfVal (l.foldl (bwdUpdate W) df0) ((p.1 + 1) * W + p.2) + 1 ∧
        dfVal (l.foldl (bwdUpdate W) df0) (p.1 * W + p.2) ≤
          dfVal (l.foldl (bwdUpdate W) df0) ((p.1 + 1) * W + (p.2 + 1)) + Real.sqrt 2) := by
  intro l
  induction l with
  | nil =>
    intro df0 hlen _ _
    exact ⟨hlen, fun j _ => rfl, fun p hp => absurd hp (List.not_mem_nil p)⟩
  | cons p rest ih =>
    intro df0 hlen hpw hint
    obtain ⟨y, x⟩ := p
    rw [List.pairwise_cons] at hpw
    obtain ⟨hhead, hrest⟩ := hpw
    obtain ⟨hy1, hyH, hx1, hxW⟩ := hint (y, x) (List.mem_cons_self _ _)
    dsimp only at hhead ⊢
    have hkey : y * W + x < W * H := key_lt_size W H y x (by omega) (by omega)
    obtain ⟨hn1, hn2, hn3, hn4⟩ := key_gt_bwd W y x hx1 hxW
    set v : ℚ × ℚ := rmin (rmin (rmin (rmin (dfGet df0 (y * W + x))
        (addOne (dfGet df0 (y * W + (x + 1)))))
        (addSqrt2 (dfGet df0 ((y + 1) * W + (x - 1)))))
        (addOne (dfGet df0 ((y + 1) * W + x))))
        (addSqrt2 (dfGet df0 ((y + 1) * W + (x + 1)))) with hv
    have hupd : bwdUpdate W df0 (y, x) = df0.set (y * W + x) v := rfl
    have hfold : List.foldl (bwdUpdate W) df0 ((y, x) :: rest) =
        List.foldl (bwdUpdate W) (df0.set (y * W + x) v) rest := by
      rw [List.foldl_cons, hupd]
    have hlen1 : (df0.set (y * W + x) v).length = W * H := by
      rw [List.length_set, hlen]
    obtain ⟨ihlen, ihun, ihper⟩ := ih (df0.set (y * W + x) v) hlen1 hrest
      (fun q hq => hint q (List.mem_cons_of_mem _ hq))
    refine ⟨by rw [hfold]; exact ihlen, ?_, ?_⟩
    · intro j hj
      rw [hfold, ihun j (fun q hq => hj q (List.mem_cons_of_mem _ hq)),
        dfGet_set_ne df0 (y * W + x) j v (hj (y, x) (List.mem_cons_self _ _))]
    · intro q hq
      rw [List.mem_cons] at hq
      rcases hq with hq | hq
      · subst hq
        dsimp only
        have hFi : dfGet (List.foldl (bwdUpdate W) df0 ((y, x) :: rest)) (y * W + x) = v := by
          rw [hfold, ihun (y * W + x) (fun r hr => ne_of_lt (hhead r hr))]
          exact dfGet_set_self df0 (y * W + x) v (by rw [hlen]; exact hkey)
        have hFn1 : dfGet (List.foldl (bwdUpdate W) df0 ((y, x) :: rest))
            (y * W + (x + 1)) = dfGet df0 (y * W + (x + 1)) := by
          rw [hfold, ihun _ (fun r hr => ne_of_lt (lt_trans (hhead r hr) hn1)),
            dfGet_set_ne df0 _ _ v (ne_of_lt hn1)]
        have hFn2 : dfGet (List.foldl (bwdUpdate W) df0 ((y, x) :: rest))
            ((y + 1) * W + (x - 1)) = dfGet df0 ((y + 1) * W + (x - 1)) := by
          rw [hfold, ihun _ (fun r hr => ne_of_lt (lt_trans (hhead r hr) hn2)),
            dfGet_set_ne df0 _ _ v (ne_of_lt hn2)]
        have hFn3 : dfGet (List.foldl (bwdUpdate W) df0 ((y, x) :: rest))
            ((y + 1) * W + x) = dfGet df0 ((y + 1) * W + x) := by
          rw [hfold, ihun _ (fun r hr => ne_of_lt (lt_trans (hhead r hr) hn3)),
            dfGet_set_ne df0 _ _ v (ne_of_lt hn3)]
        have hFn4 : dfGet (List.foldl (bwdUpdate W) df0 ((y, x) :: rest))
            ((y + 1) * W + (x + 1)) = dfGet df0 ((y + 1) * W + (x + 1)) := by
          rw [hfold, ihun _ (fun r hr => ne_of_lt (lt_trans (hhead r hr) hn4)),
            dfGet_set_ne df0 _ _ v (ne_of_lt hn4)]
        have hvv : r2valQ v =
            min (min (min (min (r2valQ (dfGet df0 (y * W + x)))
              (r2valQ (dfGet df0 (y * W + (x + 1))) + 1))
              (r2valQ (dfGet df0 ((y + 1) * W + (x - 1))) + Real.sqrt 2))
              (r2valQ (dfGet df0 ((y + 1) * W + x)) + 1))
              (r2valQ (dfGet df0 ((y + 1) * W + (x + 1))) + Real.sqrt 2) := by
          rw [hv, rmin5_val]
          simp only [r2valQ_addOne, r2valQ_addSqrt2]
        obtain ⟨m1, m2, m3, m4, m5⟩ := min5_le_parts (r2valQ (dfGet df0 (y * W + x)))
          (r2valQ (dfGet df0 (y * W + (x + 1))) + 1)
          (r2valQ (dfGet df0 ((y + 1) * W + (x - 1))) + Real.sqrt 2)
          (r2valQ (dfGet df0 ((y + 1) * W + x)) + 1)
          (r2valQ (dfGet df0 ((y + 1) * W + (x + 1))) + Real.sqrt 2)
        refine ⟨?_, ?_, ?_, ?_, ?_⟩ <;> simp only [dfVal]
        · rw [hFi, hvv]
          exact m1
        · rw [hFi, hFn1, hvv]
          exact m2
        · rw [hFi, hFn2, hvv]
          exact m3
        · rw [hFi, hFn3, hvv]
          exact m4
        · rw [hFi, hFn4, hvv]
          exact m5
      · have hq' := ihper q hq
        have hneq : y * W + x ≠ q.1 * W + q.2 := ne_of_gt (hhead q hq)
        have hset : dfGet (df0.set (y * W + x) v) (q.1 * W + q.2) =
            dfGet df0 (q.1 * W + q.2) := dfGet_set_ne df0 _ _ v hneq
        refine ⟨?_, ?_, ?_, ?_, ?_⟩
        · rw [hfold]
          refine le_trans hq'.1 ?_
          simp only [dfVal]
          rw [hset]
        · rw [hfold]
          exact hq'.2.1
        · rw [hfold]
          exact hq'.2.2.1
        · rw [hfold]
          exact hq'.2.2.2.1
        · rw [hfold]
          exact hq'.2.2.2.2

lemma fwdPass_props (W H : ℕ) (s : ℚ) (mask : ℕ → Bool) :
    (fwdPass W H s mask).length = W * H ∧
    (∀ j, (∀ p ∈ fwdIndices W H, p.1 * W + p.2 ≠ j) →
        dfGet (fwdPass W H s mask) j = dfGet (initDF W H s mask) j) ∧
    (∀ p ∈ fwdIndices W H,
      dfVal (fwdPass W H s mask) (p.1 * W + p.2) ≤ dfVal (initDF W H s mask) (p.1 * W + p.2) ∧
      dfVal (fwdPass W H s mask) (p.1 * W + p.2) ≤
        dfVal (fwdPass W H s mask) ((p.1 - 1) * W + (p.2 - 1)) + Real.sqrt 2 ∧
      dfVal (fwdPass W H s mask) (p.1 * W + p.2) ≤
        dfVal (fwdPass W H s mask) ((p.1 - 1) * W + p.2) + 1 ∧
      dfVal (fwdPass W H s mask) (p.1 * W + p.2) ≤
        dfVal (fwdPass W H s mask) ((p.1 - 1) * W + (p.2 + 1)) + Real.sqrt 2 ∧
      dfVal (fwdPass W H s mask) (p.1 * W + p.2) ≤
        dfVal (fwdPass W H s mask) (p.1 * W + (p.2 - 1)) + 1) :=
  fwd_fold_props W H (fwdIndices W H) (initDF W H s mask)
    (initDF_length W H s mask) (pairwise_fwdIndices W H)
    (fun p hp => by
      obtain ⟨a, b⟩ := p
      exact (mem_fwdIndices W H a b).mp hp)

lemma bwdPass_props (W H : ℕ) (s : ℚ) (mask : ℕ → Bool) :
    (chamferDistanceField W H s mask).length = W * H ∧
    (∀ j, (∀ p ∈ bwdIndices W H, p.1 * W + p.2 ≠ j) →
        dfGet (chamferDistanceField W H s mask) j = dfGet (fwdPass W H s mask) j) ∧
    (∀ p ∈ bwdIndices W H,
      dfVal (chamferDistanceField W H s mask) (p.1 * W + p.2) ≤
        dfVal (fwdPass W H s mask) (p.1 * W + p.2) ∧
      dfVal (chamferDistanceField W H s mask) (p.1 * W + p.2) ≤
        dfVal (chamferDistanceField W H s mask) (p.1 * W + (p.2 + 1)) + 1 ∧
      dfVal (chamferDistanceField W H s mask) (p.1 * W + p.2) ≤
        dfVal (chamferDistanceField W H s mask) ((p.1 + 1) * W + (p.2 - 1)) + Real.sqrt 2 ∧
      dfVal (chamferDistanceField W H s mask) (p.1 * W + p.2) ≤
        dfVal (chamferDistanceField W H s mask) ((p.1 + 1) * W + p.2) + 1 ∧
      dfVal (chamferDistanceField W H s mask) (p.1 * W + p.2) ≤
        dfVal (chamferDistanceField W H s mask) ((p.1 + 1) * W + (p.2 + 1)) + Real.sqrt 2) :=
  bwd_fold_props W H (bwdIndices W H) (fwdPass W H s mask)
    (fwdPass_props W H s mask).1 (pairwise_bwdIndices W H)
    (fun p hp => by
      obtain ⟨a, b⟩ := p
      exact (mem_bwdIndices W H a b).mp hp)

lemma fwd_step_ub (W H : ℕ) (s : ℚ) (mask : ℕ → Bool) (y x : ℕ)
    (hy1 : 1 ≤ y) (hyH : y + 1 < H) (hx1 : 1 ≤ x) (hxW : x + 1 < W) :
    dfVal (fwdPass W H s mask) (y * W + x) ≤ dfVal (initDF W H s mask) (y * W + x) ∧
    dfVal (fwdPass W H s mask) (y * W + x) ≤
      dfVal (fwdPass W H s mask) ((y - 1) * W + (x - 1)) + Real.sqrt 2 ∧
    dfVal (fwdPass W H s mask) (y * W + x) ≤
      dfVal (fwdPass W H s mask) ((y - 1) * W + x) + 1 ∧
    dfVal (fwdPass W H s mask) (y * W + x) ≤
      dfVal (fwdPass W H s mask) ((y - 1) * W + (x + 1)) + Real.sqrt 2 ∧
    dfVal (fwdPass W H s mask) (y * W + x) ≤
      dfVal (fwdPass W H s mask) (y * W + (x - 1)) + 1 :=
  (fwdPass_props W H s mask).2.2 (y, x) ((mem_fwdIndices W H y x).mpr ⟨hy1, hyH, hx1, hxW⟩)

lemma bwd_step_ub (W H : ℕ) (s : ℚ) (mask : ℕ → Bool) (y x : ℕ)
    (hy1 : 1 ≤ y) (hyH : y + 1 < H) (hx1 : 1 ≤ x) (hxW : x + 1 < W) :
    dfVal (chamferDistanceField W H s mask) (y * W + x) ≤
      dfVal (fwdPass W H s mask) (y * W + x) ∧
    dfVal (chamferDistanceField W H s mask) (y * W + x) ≤
      dfVal (chamferDistanceField W H s mask) (y * W + (x + 1)) + 1 ∧
    dfVal (chamferDistanceField W H s mask) (y * W + x) ≤
      dfVal (chamferDistanceField W H s mask) ((y + 1) * W + (x - 1)) + Real.sqrt 2 ∧
    dfVal (chamferDistanceField W H s mask) (y * W + x) ≤
      dfVal (chamferDistanceField W H s mask) ((y + 1) * W + x) + 1 ∧
    dfVal (chamferDistanceField W H s mask) (y * W + x) ≤
      dfVal (chamferDistanceField W H s mask) ((y + 1) * W + (x + 1)) + Real.sqrt 2 :=
  (bwdPass_props W H s mask).2.2 (y, x) ((mem_bwdIndices W H y x).mpr ⟨hy1, hyH, hx1, hxW⟩)

lemma bwd_pass_le (W H : ℕ) (s : ℚ) (mask : ℕ → Bool) (i : ℕ) :
    dfVal (chamferDistanceField W H s mask) i ≤ dfVal (fwdPass W H s mask) i := by
  by_cases h : ∃ p ∈ bwdIndices W H, p.1 * W + p.2 = i
  · obtain ⟨p, hp, hk⟩ := h
    subst hk
    exact ((bwdPass_props W H s mask).2.2 p hp).1
  · push_neg at h
    simp only [dfVal]
    rw [(bwdPass_props W H s mask).2.1 i h]

lemma foldl_inv {α β : Type} (P : β → Prop) (f : β → α → β) :
    ∀ (l : List α) (b : β), P b → (∀ a ∈ l, ∀ c, P c → P (f c a)) → P (l.foldl f b)
  | [], b, hb, _ => hb
  | a :: l, b, hb, hstep =>
    foldl_inv P f l (f b a) (hstep a (List.mem_cons_self _ _) b hb)
      (fun a' ha' c hc => hstep a' (List.mem_cons_of_mem _ ha') c hc)

lemma lb_nbr (X Y Xn Yn B S u v : ℝ) (hX : Xn = X - u) (hY : Yn = Y - v)
    (h : min (octile Xn Yn) S ≤ B) :
    min (octile X Y) S ≤ B + octile u v := by
  subst hX hY
  exact lb_step _ _ _ _ _ h (octile_tri' X Y u v) (octile_nonneg u v)

/-- Seed-octile lower bound holds on the initial field (single-seed mask). -/
lemma chamfer_lb_init (W H sx sy : ℕ) (s : ℚ) (hsx : sx < W) :
    ∀ j, j < W * H →
      min (octile ((↑(j % W) : ℝ) - ↑sx) ((↑(j / W) : ℝ) - ↑sy)) ((s : ℝ) * 2) ≤
        r2valQ (dfGet (initDF W H s (fun k => k == sy * W + sx)) j) := by
  intro j hj
  rw [initDF_get W H s _ j hj]
  by_cases hm : j = sy * W + sx
  · subst hm
    rw [if_pos (by simp)]
    rw [idx_mod W sy sx hsx, idx_div W sy sx hsx]
    simp only [sub_self, octile_zero]
    have : r2valQ ((0 : ℚ), (0 : ℚ)) = 0 := by
      simp [r2valQ]
    rw [this]
    exact min_le_left _ _
  · rw [if_neg (by simpa using hm)]
    have : r2valQ ((s * 2 : ℚ), (0 : ℚ)) = (s : ℝ) * 2 := by
      simp [r2valQ]
    rw [this]
    exact min_le_right _ _

/-- A forward-pass update at an interior position preserves the seed-octile
lower bound. -/
lemma chamfer_lb_fwdstep (W H sx sy : ℕ) (s : ℚ) (y x : ℕ)
    (hy1 : 1 ≤ y) (hyH : y + 1 < H) (hx1 : 1 ≤ x) (hxW : x + 1 < W)
    (df : List (ℚ × ℚ)) (hlen : df.length = W * H)
    (hinv : ∀ j, j < W * H →
      min (octile ((↑(j % W) : ℝ) - ↑sx) ((↑(j / W) : ℝ) - ↑sy)) ((s : ℝ) * 2) ≤
        r2valQ (dfGet df j)) :
    ∀ j, j < W * H →
      min (octile ((↑(j % W) : ℝ) - ↑sx) ((↑(j / W) : ℝ) - ↑sy)) ((s : ℝ) * 2) ≤
        r2valQ (dfGet (fwdUpdate W df (y, x)) j) := by
  intro j hj
  set v : ℚ × ℚ := rmin (rmin (rmin (rmin (dfGet df (y * W + x))
      (addSqrt2 (dfGet df ((y - 1) * W + (x - 1)))))
      (addOne (dfGet df ((y - 1) * W + x))))
      (addSqrt2 (dfGet df ((y - 1) * W + (x + 1)))))
      (addOne (dfGet df (y * W + (x - 1)))) with hv
  have hupd : fwdUpdate W df (y, x) = df.set (y * W + x) v := rfl
  by_cases hieq : j = y * W + x
  · subst hieq
    rw [hupd, dfGet_set_self df _ v (by rw [hlen]; exact key_lt_size W H y x (by omega) (by omega))]
    have hvv : r2valQ v =
        min (min (min (min (r2valQ (dfGet df (y * W + x)))
          (r2valQ (dfGet df ((y - 1) * W + (x - 1))) + Real.sqrt 2))
          (r2valQ (dfGet df ((y - 1) * W + x)) + 1))
          (r2valQ (dfGet df ((y - 1) * W + (x + 1))) + Real.sqrt 2))
          (r2valQ (dfGet df (y * W + (x - 1))) + 1) := by
      rw [hv, rmin5_val]
      simp only [r2valQ_addOne, r2valQ_addSqrt2]
    rw [hvv, idx_mod W y x (by omega), idx_div W y x (by omega)]
    have hS2 : octile 1 1 = Real.sqrt 2 := octile_diag 1 1 (by norm_num) (by norm_num)
    have hS2' : octile (-1) 1 = Real.sqrt 2 := octile_diag (-1) 1 (by norm_num) (by norm_num)
    have h1u : octile 0 1 = 1 := octile_unit' 0 1 (by norm_num) (by norm_num)
    have h1l : octile 1 0 = 1 := octile_unit 1 0 (by norm_num) (by norm_num)
    refine le_min (le_min (le_min (le_min ?_ ?_) ?_) ?_) ?_
    · have hIH := hinv (y * W + x) (key_lt_size W H y x (by omega) (by omega))
      rw [idx_mod W y x (by omega), idx_div W y x (by omega)] at hIH
      exact hIH
    · have hn : (y - 1) * W + (x - 1) < W * H := key_lt_size W H (y - 1) (x - 1) (by omega) (by omega)
      have hIH := hinv ((y - 1) * W + (x - 1)) hn
      rw [idx_mod W (y - 1) (x - 1) (by omega), idx_div W (y - 1) (x - 1) (by omega)] at hIH
      have h2 := lb_nbr (↑x - ↑sx) (↑y - ↑sy) (↑(x - 1) - ↑sx) (↑(y - 1) - ↑sy)
        (r2valQ (dfGet df ((y - 1) * W + (x - 1)))) ((s : ℝ) * 2) 1 1
        (by rw [Nat.cast_sub hx1]; push_cast; ring)
        (by rw [Nat.cast_sub hy1]; push_cast; ring) hIH
      rwa [hS2] at h2
    · have hn : (y - 1) * W + x < W * H := key_lt_size W H (y - 1) x (by omega) (by omega)
      have hIH := hinv ((y - 1) * W + x) hn
      rw [idx_mod W (y - 1) x (by omega), idx_div W (y - 1) x (by omega)] at hIH
      have h2 := lb_nbr (↑x - ↑sx) (↑y - ↑sy) (↑x - ↑sx) (↑(y - 1) - ↑sy)
        (r2valQ (dfGet df ((y - 1) * W + x))) ((s : ℝ) * 2) 0 1
        (by ring) (by rw [Nat.cast_sub hy1]; push_cast; ring) hIH
      rwa [h1u] at h2
    · have hn : (y - 1) * W + (x + 1) < W * H := key_lt_size W H (y - 1) (x + 1) (by omega) (by omega)
      have hIH := hinv ((y - 1) * W + (x + 1)) hn
      rw [idx_mod W (y - 1) (x + 1) (by omega), idx_div W (y - 1) (x + 1) (by omega)] at hIH
      have h2 := lb_nbr (↑x - ↑sx) (↑y - ↑sy) (↑(x + 1) - ↑sx) (↑(y - 1) - ↑sy)
        (r2valQ (dfGet df ((y - 1) * W + (x + 1)))) ((s : ℝ) * 2) (-1) 1
        (by push_cast; ring) (by rw [Nat.cast_sub hy1]; push_cast; ring) hIH
      rwa [hS2'] at h2
    · have hn : y * W + (x - 1) < W * H := key_lt_size W H y (x - 1) (by omega) (by omega)
      have hIH := hinv (y * W + (x - 1)) hn
      rw [idx_mod W y (x - 1) (by omega), idx_div W y (x - 1) (by omega)] at hIH
      have h2 := lb_nbr (↑x - ↑sx) (↑y - ↑sy) (↑(x - 1) - ↑sx) (↑y - ↑sy)
        (r2valQ (dfGet df (y * W + (x - 1)))) ((s : ℝ) * 2) 1 0
        (by rw [Nat.cast_sub hx1]; push_cast; ring) (by ring) hIH
      rwa [h1l] at h2
  · rw [hupd, dfGet_set_ne df _ j v (fun hh => hieq hh.symm)]
    exact hinv j hj

/-- A backward-pass update at an interior position preserves the seed-octile
lower bound. -/
lemma chamfer_lb_bwdstep (W H sx sy : ℕ) (s : ℚ) (y x : ℕ)
    (hy1 : 1 ≤ y) (hyH : y + 1 < H) (hx1 : 1 ≤ x) (hxW : x + 1 < W)
    (df : List (ℚ × ℚ)) (hlen : df.length = W * H)
    (hinv : ∀ j, j < W * H →
      min (octile ((↑(j % W) : ℝ) - ↑sx) ((↑(j / W) : ℝ) - ↑sy)) ((s : ℝ) * 2) ≤
        r2valQ (dfGet df j)) :
    ∀ j, j < W * H →
      min (octile ((↑(j % W) : ℝ) - ↑sx) ((↑(j / W) : ℝ) - ↑sy)) ((s : ℝ) * 2) ≤
        r2valQ (dfGet (bwdUpdate W df (y, x)) j) := by
  intro j hj
  set v : ℚ × ℚ := rmin (rmin (rmin (rmin (dfGet df (y * W + x))
      (addOne (dfGet df (y * W + (x + 1)))))
      (addSqrt2 (dfGet df ((y + 1) * W + (x - 1)))))
      (addOne (dfGet df ((y + 1) * W + x))))
      (addSqrt2 (dfGet df ((y + 1) * W + (x + 1)))) with hv
  have hupd : bwdUpdate W df (y, x) = df.set (y * W + x) v := rfl
  by_cases hieq : j = y * W + x
  · subst hieq
    rw [hupd, dfGet_set_self df _ v (by rw [hlen]; exact key_lt_size W H y x (by omega) (by omega))]
    have hvv : r2valQ v =
        min (min (min (min (r2valQ (dfGet df (y * W + x)))
          (r2valQ (dfGet df (y * W + (x + 1))) + 1))
          (r2valQ (dfGet df ((y + 1) * W + (x - 1))) + Real.sqrt 2))
          (r2valQ (dfGet df ((y + 1) * W + x)) + 1))
          (r2valQ (dfGet df ((y + 1) * W + (x + 1))) + Real.sqrt 2) := by
      rw [hv, rmin5_val]
      simp only [r2valQ_addOne, r2valQ_addSqrt2]
    rw [hvv, idx_mod W y x (by omega), idx_div W y x (by omega)]
    have hS2 : octile 1 (-1) = Real.sqrt 2 := octile_diag 1 (-1) (by norm_num) (by norm_num)
    have hS2' : octile (-1) (-1) = Real.sqrt 2 := octile_diag (-1) (-1) (by norm_num) (by norm_num)
    have h1r : octile (-1) 0 = 1 := octile_unit (-1) 0 (by norm_num) (by norm_num)
    have h1d : octile 0 (-1) = 1 := octile_unit' 0 (-1) (by norm_num) (by norm_num)
    refine le_min (le_min (le_min (le_min ?_ ?_) ?_) ?_) ?_
    · have hIH := hinv (y * W + x) (key_lt_size W H y x (by omega) (by omega))
      rw [idx_mod W y x (by omega), idx_div W y x (by omega)] at hIH
      exact hIH
    · have hn : y * W + (x + 1) < W * H := key_lt_size W H y (x + 1) (by omega) (by omega)
      have hIH := hinv (y * W + (x + 1)) hn
      rw [idx_mod W y (x + 1) (by omega), idx_div W y (x + 1) (by omega)] at hIH
      have h2 := lb_nbr (↑x - ↑sx) (↑y - ↑sy) (↑(x + 1) - ↑sx) (↑y - ↑sy)
        (r2valQ (dfGet df (y * W + (x + 1)))) ((s : ℝ) * 2) (-1) 0
        (by push_cast; ring) (by ring) hIH
      rwa [h1r] at h2
    · have hn : (y + 1) * W + (x - 1) < W * H := key_lt_size W H (y + 1) (x - 1) (by omega) (by omega)
      have hIH := hinv ((y + 1) * W + (x - 1)) hn
      rw [idx_mod W (y + 1) (x - 1) (by omega), idx_div W (y + 1) (x - 1) (by omega)] at hIH
      have h2 := lb_nbr (↑x - ↑sx) (↑y - ↑sy) (↑(x - 1) - ↑sx) (↑(y + 1) - ↑sy)
        (r2valQ (dfGet df ((y + 1) * W + (x - 1)))) ((s : ℝ) * 2) 1 (-1)
        (by rw [Nat.cast_sub hx1]; push_cast; ring) (by push_cast; ring) hIH
      rwa [hS2] at h2
    · have hn : (y + 1) * W + x < W * H := key_lt_size W H (y + 1) x (by omega) (by omega)
      have hIH := hinv ((y + 1) * W + x) hn
      rw [idx_mod W (y + 1) x (by omega), idx_div W (y + 1) x (by omega)] at hIH
      have h2 := lb_nbr (↑x - ↑sx) (↑y - ↑sy) (↑x - ↑sx) (↑(y + 1) - ↑sy)
        (r2valQ (dfGet df ((y + 1) * W + x))) ((s : ℝ) * 2) 0 (-1)
        (by ring) (by push_cast; ring) hIH
      rwa [h1d] at h2
    · have hn : (y + 1) * W + (x + 1) < W * H := key_lt_size W H (y + 1) (x + 1) (by omega) (by omega)
      have hIH := hinv ((y + 1) * W + (x + 1)) hn
      rw [idx_mod W (y + 1) (x + 1) (by omega), idx_div W (y + 1) (x + 1) (by omega)] at hIH
      have h2 := lb_nbr (↑x - ↑sx) (↑y - ↑sy) (↑(x + 1) - ↑sx) (↑(y + 1) - ↑sy)
        (r2valQ (dfGet df ((y + 1) * W + (x + 1)))) ((s : ℝ) * 2) (-1) (-1)
        (by push_cast; ring) (by push_cast; ring) hIH
      rwa [hS2'] at h2
  · rw [hupd, dfGet_set_ne df _ j v (fun hh => hieq hh.symm)]
    exact hinv j hj

/-- The computed chamfer value never drops below the octile distance to the
seed, capped at the sentinel. -/
lemma chamfer_lb (W H sx sy : ℕ) (s : ℚ) (hsx : sx < W) (i : ℕ) (hi : i < W * H) :
    min (octile ((↑(i % W) : ℝ) - ↑sx) ((↑(i / W) : ℝ) - ↑sy)) ((s : ℝ) * 2) ≤
      dfVal (chamferDistanceField W H s (fun k => k == sy * W + sx)) i := by
  have hfold : chamferDistanceField W H s (fun k => k == sy * W + sx) =
      (bwdIndices W H).foldl (bwdUpdate W)
        (fwdPass W H s (fun k => k == sy * W + sx)) := rfl
  have h1 := foldl_inv (fun df => df.length = W * H ∧
      ∀ j, j < W * H →
        min (octile ((↑(j % W) : ℝ) - ↑sx) ((↑(j / W) : ℝ) - ↑sy)) ((s : ℝ) * 2) ≤
          r2valQ (dfGet df j))
    (fwdUpdate W) (fwdIndices W H) (initDF W H s (fun k => k == sy * W + sx))
    ⟨initDF_length W H s _, chamfer_lb_init W H sx sy s hsx⟩
    (fun p hp c hc => by
      obtain ⟨a, b⟩ := p
      obtain ⟨ha1, haH, hb1, hbW⟩ := (mem_fwdIndices W H a b).mp hp
      exact ⟨by rw [show fwdUpdate W c (a, b) = c.set (a * W + b) _ from rfl,
          List.length_set, hc.1],
        chamfer_lb_fwdstep W H sx sy s a b ha1 haH hb1 hbW c hc.1 hc.2⟩)
  have h2 := foldl_inv (fun df => df.length = W * H ∧
      ∀ j, j < W * H →
        min (octile ((↑(j % W) : ℝ) - ↑sx) ((↑(j / W) : ℝ) - ↑sy)) ((s : ℝ) * 2) ≤
          r2valQ (dfGet df j))
    (bwdUpdate W) (bwdIndices W H) (fwdPass W H s (fun k => k == sy * W + sx))
    h1
    (fun p hp c hc => by
      obtain ⟨a, b⟩ := p
      obtain ⟨ha1, haH, hb1, hbW⟩ := (mem_bwdIndices W H a b).mp hp
      exact ⟨by rw [show bwdUpdate W c (a, b) = c.set (a * W + b) _ from rfl,
          List.length_set, hc.1],
        chamfer_lb_bwdstep W H sx sy s a b ha1 haH hb1 hbW c hc.1 hc.2⟩)
  rw [hfold]
  exact h2.2 i hi

lemma fwd_chain_left (W H : ℕ) (s : ℚ) (mask : ℕ → Bool) (y x0 : ℕ)
    (hy1 : 1 ≤ y) (hyH : y + 1 < H) (hx0 : 1 ≤ x0) :
    ∀ k, x0 + k + 1 < W →
      dfVal (fwdPass W H s mask) (y * W + (x0 + k)) ≤
        dfVal (fwdPass W H s mask) (y * W + x0) + k := by
  intro k
  induction k with
  | zero =>
    intro _
    simp
  | succ k ih =>
    intro hW
    have hstep := (fwd_step_ub W H s mask y (x0 + (k + 1)) hy1 hyH (by omega) (by omega)).2.2.2.2
    have e : x0 + (k + 1) - 1 = x0 + k := by omega
    rw [e] at hstep
    have h2 := ih (by omega)
    push_cast
    push_cast at h2
    linarith

lemma fwd_chain_up (W H : ℕ) (s : ℚ) (mask : ℕ → Bool) (y0 x : ℕ)
    (hy0 : 1 ≤ y0) (hx1 : 1 ≤ x) (hxW : x + 1 < W) :
    ∀ k, y0 + k + 1 < H →
      dfVal (fwdPass W H s mask) ((y0 + k) * W + x) ≤
        dfVal (fwdPass W H s mask) (y0 * W + x) + k := by
  intro k
  induction k with
  | zero =>
    intro _
    simp
  | succ k ih =>
    intro hH
    have hstep := (fwd_step_ub W H s mask (y0 + (k + 1)) x (by omega) hH hx1 hxW).2.2.1
    have e : y0 + (k + 1) - 1 = y0 + k := by omega
    rw [e] at hstep
    have h2 := ih (by omega)
    push_cast
    push_cast at h2
    linarith

lemma fwd_chain_diag (W H : ℕ) (s : ℚ) (mask : ℕ → Bool) (y0 x0 : ℕ)
    (hy0 : 1 ≤ y0) (hx0 : 1 ≤ x0) :
    ∀ k, y0 + k + 1 < H → x0 + k + 1 < W →
      dfVal (fwdPass W H s mask) ((y0 + k) * W + (x0 + k)) ≤
        dfVal (fwdPass W H s mask) (y0 * W + x0) + k * Real.sqrt 2 := by
  intro k
  induction k with
  | zero =>
    intro _ _
    simp
  | succ k ih =>
    intro hH hW
    have hstep := (fwd_step_ub W H s mask (y0 + (k + 1)) (x0 + (k + 1))
      (by omega) hH (by omega) hW).2.1
    have e1 : y0 + (k + 1) - 1 = y0 + k := by omega
    have e2 : x0 + (k + 1) - 1 = x0 + k := by omega
    rw [e1, e2] at hstep
    have h2 := ih (by omega) (by omega)
    push_cast
    push_cast at h2
    nlinarith [Real.sqrt_nonneg 2]

lemma fwd_chain_antidiag (W H : ℕ) (s : ℚ) (mask : ℕ → Bool) (y0 : ℕ) (hy0 : 1 ≤ y0) :
    ∀ k x0, 1 ≤ x0 → y0 + k + 1 < H → x0 + k + 1 < W →
      dfVal (fwdPass W H s mask) ((y0 + k) * W + x0) ≤
        dfVal (fwdPass W H s mask) (y0 * W + (x0 + k)) + k * Real.sqrt 2 := by
  intro k
  induction k with
  | zero =>
    intro x0 _ _ _
    simp
  | succ k ih =>
    intro x0 hx0 hH hW
    have hstep := (fwd_step_ub W H s mask (y0 + (k + 1)) x0 (by omega) hH hx0
      (by omega)).2.2.2.1
    have e1 : y0 + (k + 1) - 1 = y0 + k := by omega
    rw [e1] at hstep
    have h2 := ih (x0 + 1) (by omega) (by omega) (by omega)
    have e2 : x0 + 1 + k = x0 + (k + 1) := by omega
    rw [e2] at h2
    push_cast
    push_cast at h2
    nlinarith [Real.sqrt_nonneg 2]

lemma bwd_chain_right (W H : ℕ) (s : ℚ) (mask : ℕ → Bool) (y : ℕ)
    (hy1 : 1 ≤ y) (hyH : y + 1 < H) :
    ∀ k x0, 1 ≤ x0 → x0 + k + 1 < W →
      dfVal (chamferDistanceField W H s mask) (y * W + x0) ≤
        dfVal (chamferDistanceField W H s mask) (y * W + (x0 + k)) + k := by
  intro k
  induction k with
  | zero =>
    intro x0 _ _
    simp
  | succ k ih =>
    intro x0 hx0 hW
    have hstep := (bwd_step_ub W H s mask y x0 hy1 hyH hx0 (by omega)).2.1
    have h2 := ih (x0 + 1) (by omega) (by omega)
    have e2 : x0 + 1 + k = x0 + (k + 1) := by omega
    rw [e2] at h2
    push_cast
    push_cast at h2
    linarith

lemma bwd_chain_down (W H : ℕ) (s : ℚ) (mask : ℕ → Bool) (x : ℕ)
    (hx1 : 1 ≤ x) (hxW : x + 1 < W) :
    ∀ k y0, 1 ≤ y0 → y0 + k + 1 < H →
      dfVal (chamferDistanceField W H s mask) (y0 * W + x) ≤
        dfVal (chamferDistanceField W H s mask) ((y0 + k) * W + x) + k := by
  intro k
  induction k with
  | zero =>
    intro y0 _ _
    simp
  | succ k ih =>
    intro y0 hy0 hH
    have hstep := (bwd_step_ub W H s mask y0 x hy0 (by omega) hx1 hxW).2.2.2.1
    have h2 := ih (y0 + 1) (by omega) (by omega)
    have e2 : y0 + 1 + k = y0 + (k + 1) := by omega
    rw [e2] at h2
    push_cast
    push_cast at h2
    linarith

lemma bwd_chain_diag (W H : ℕ) (s : ℚ) (mask : ℕ → Bool) :
    ∀ k y0 x0, 1 ≤ y0 → 1 ≤ x0 → y0 + k + 1 < H → x0 + k + 1 < W →
      dfVal (chamferDistanceField W H s mask) (y0 * W + x0) ≤
        dfVal (chamferDistanceField W H s mask) ((y0 + k) * W + (x0 + k)) +
          k * Real.sqrt 2 := by
  intro k
  induction k with
  | zero =>
    intro y0 x0 _ _ _ _
    simp
  | succ k ih =>
    intro y0 x0 hy0 hx0 hH hW
    have hstep := (bwd_step_ub W H s mask y0 x0 hy0 (by omega) hx0 (by omega)).2.2.2.2
    have h2 := ih (y0 + 1) (x0 + 1) (by omega) (by omega) (by omega) (by omega)
    have e1 : y0 + 1 + k = y0 + (k + 1) := by omega
    have e2 : x0 + 1 + k = x0 + (k + 1) := by omega
    rw [e1, e2] at h2
    push_cast
    push_cast at h2
    nlinarith [Real.sqrt_nonneg 2]

lemma bwd_chain_antidiag (W H : ℕ) (s : ℚ) (mask : ℕ → Bool) (x0 : ℕ) (hx0 : 1 ≤ x0) :
    ∀ k y0, 1 ≤ y0 → y0 + k + 1 < H → x0 + k + 1 < W →
      dfVal (chamferDistanceField W H s mask) (y0 * W + (x0 + k)) ≤
        dfVal (chamferDistanceField W H s mask) ((y0 + k) * W + x0) +
          k * Real.sqrt 2 := by
  intro k
  induction k with
  | zero =>
    intro y0 _ _ _
    simp
  | succ k ih =>
    intro y0 hy0 hH hW
    have hstep := (bwd_step_ub W H s mask y0 (x0 + (k + 1)) hy0 (by omega)
      (by omega) (by omega)).2.2.1
    have e : x0 + (k + 1) - 1 = x0 + k := by omega
    rw [e] at hstep
    have h2 := ih (y0 + 1) (by omega) (by omega) (by omega)
    have e1 : y0 + 1 + k = y0 + (k + 1) := by omega
    rw [e1] at h2
    push_cast
    push_cast at h2
    nlinarith [Real.sqrt_nonneg 2]

lemma octile_vals_le (a b : ℕ) (X Y : ℝ) (hX : |X| = a) (hY : |Y| = b) (hab : a ≤ b) :
    octile X Y = (a : ℝ) * Real.sqrt 2 + ((b : ℝ) - (a : ℝ)) := by
  rw [octile_formula, hX, hY, min_eq_left (by exact_mod_cast hab),
    max_eq_right (by exact_mod_cast hab)]

lemma octile_vals_ge (a b : ℕ) (X Y : ℝ) (hX : |X| = a) (hY : |Y| = b) (hba : b ≤ a) :
    octile X Y = (b : ℝ) * Real.sqrt 2 + ((a : ℝ) - (b : ℝ)) := by
  rw [octile_formula, hX, hY, min_eq_right (by exact_mod_cast hba),
    max_eq_left (by exact_mod_cast hba)]

/-- The forward pass leaves the seed cell of a single-seed mask at value 0
(or below — together with the lower bound, exactly 0). -/
lemma fwdPass_seed_le_zero (W H sx sy : ℕ) (s : ℚ)
    (hsx1 : 1 ≤ sx) (hsxW : sx + 1 < W) (hsy1 : 1 ≤ sy) (hsyH : sy + 1 < H) :
    dfVal (fwdPass W H s (fun k => k == sy * W + sx)) (sy * W + sx) ≤ 0 := by
  have h1 := (fwd_step_ub W H s (fun k => k == sy * W + sx) sy sx hsy1 hsyH hsx1 hsxW).1
  have h0 : dfVal (initDF W H s (fun k => k == sy * W + sx)) (sy * W + sx) = 0 := by
    simp only [dfVal]
    rw [initDF_get W H s _ _ (key_lt_size W H sy sx (by omega) (by omega)), if_pos (by simp)]
    simp [r2valQ]
  linarith

/-- Octile upper bound: a monotone staircase of chamfer steps connects any
interior target to any interior cell, so the final value at the target is at
most the forward-pass value at that cell plus the octile distance. -/
lemma chamfer_ub (W H : ℕ) (s : ℚ) (mask : ℕ → Bool) (sx sy tx ty : ℕ)
    (hsx1 : 1 ≤ sx) (hsxW : sx + 1 < W) (hsy1 : 1 ≤ sy) (hsyH : sy + 1 < H)
    (htx1 : 1 ≤ tx) (htxW : tx + 1 < W) (hty1 : 1 ≤ ty) (htyH : ty + 1 < H) :
    dfVal (chamferDistanceField W H s mask) (ty * W + tx) ≤
      dfVal (fwdPass W H s mask) (sy * W + sx) +
        octile ((tx : ℝ) - (sx : ℝ)) ((ty : ℝ) - (sy : ℝ)) := by
  rcases le_total sx tx with hx | hx <;> rcases le_total sy ty with hy | hy
  · -- seed up-left of target
    obtain ⟨a, rfl⟩ := Nat.exists_eq_add_of_le hx
    obtain ⟨b, rfl⟩ := Nat.exists_eq_add_of_le hy
    have eX : ((sx + a : ℕ) : ℝ) - (sx : ℝ) = (a : ℝ) := by push_cast; ring
    have eY : ((sy + b : ℕ) : ℝ) - (sy : ℝ) = (b : ℝ) := by push_cast; ring
    rw [eX, eY]
    have habs1 : |(a : ℝ)| = (a : ℝ) := abs_of_nonneg (Nat.cast_nonneg a)
    have habs2 : |(b : ℝ)| = (b : ℝ) := abs_of_nonneg (Nat.cast_nonneg b)
    have hbr := bwd_pass_le W H s mask ((sy + b) * W + (sx + a))
    rcases le_total a b with hab | hba
    · have hdiag := fwd_chain_diag W H s mask (sy + (b - a)) sx (by omega) hsx1 a
        (by omega) (by omega)
      have e1 : sy + (b - a) + a = sy + b := by omega
      rw [e1] at hdiag
      have hup := fwd_chain_up W H s mask sy sx hsy1 hsx1 hsxW (b - a) (by omega)
      have ecast : ((b - a : ℕ) : ℝ) = (b : ℝ) - (a : ℝ) := Nat.cast_sub hab
      rw [ecast] at hup
      have hoct := octile_vals_le a b _ _ habs1 habs2 hab
      linarith
    · have hdiag := fwd_chain_diag W H s mask sy (sx + (a - b)) hsy1 (by omega) b
        (by omega) (by omega)
      have e1 : sx + (a - b) + b = sx + a := by omega
      rw [e1] at hdiag
      have hleft := fwd_chain_left W H s mask sy sx hsy1 hsyH hsx1 (a - b) (by omega)
      have ecast : ((a - b : ℕ) : ℝ) = (a : ℝ) - (b : ℝ) := Nat.cast_sub hba
      rw [ecast] at hleft
      have hoct := octile_vals_ge a b _ _ habs1 habs2 hba
      linarith
  · -- seed down-left of target
    obtain ⟨a, rfl⟩ := Nat.exists_eq_add_of_le hx
    obtain ⟨b, rfl⟩ := Nat.exists_eq_add_of_le hy
    have eX : ((sx + a : ℕ) : ℝ) - (sx : ℝ) = (a : ℝ) := by push_cast; ring
    have eY : ((ty : ℕ) : ℝ) - ((ty + b : ℕ) : ℝ) = -(b : ℝ) := by push_cast; ring
    rw [eX, eY]
    have habs1 : |(a : ℝ)| = (a : ℝ) := abs_of_nonneg (Nat.cast_nonneg a)
    have habs2 : |(-(b : ℝ))| = (b : ℝ) := by
      rw [abs_neg]
      exact abs_of_nonneg (Nat.cast_nonneg b)
    rcases le_total a b with hab | hba
    · have hdl := bwd_chain_antidiag W H s mask sx hsx1 a ty hty1 (by omega) (by omega)
      have hdown := bwd_chain_down W H s mask sx hsx1 hsxW (b - a) (ty + a)
        (by omega) (by omega)
      have e1 : ty + a + (b - a) = ty + b := by omega
      rw [e1] at hdown
      have hbr := bwd_pass_le W H s mask ((ty + b) * W + sx)
      have ecast : ((b - a : ℕ) : ℝ) = (b : ℝ) - (a : ℝ) := Nat.cast_sub hab
      rw [ecast] at hdown
      have hoct := octile_vals_le a b _ _ habs1 habs2 hab
      linarith
    · have hdl := bwd_chain_antidiag W H s mask (sx + (a - b)) (by omega) b ty hty1
        (by omega) (by omega)
      have e1 : sx + (a - b) + b = sx + a := by omega
      rw [e1] at hdl
      have hbr := bwd_pass_le W H s mask ((ty + b) * W + (sx + (a - b)))
      have hleft := fwd_chain_left W H s mask (ty + b) sx (by omega) hsyH hsx1 (a - b)
        (by omega)
      have ecast : ((a - b : ℕ) : ℝ) = (a : ℝ) - (b : ℝ) := Nat.cast_sub hba
      rw [ecast] at hleft
      have hoct := octile_vals_ge a b _ _ habs1 habs2 hba
      linarith
  · -- seed up-right of target
    obtain ⟨a, rfl⟩ := Nat.exists_eq_add_of_le hx
    obtain ⟨b, rfl⟩ := Nat.exists_eq_add_of_le hy
    have eX : ((tx : ℕ) : ℝ) - ((tx + a : ℕ) : ℝ) = -(a : ℝ) := by push_cast; ring
    have eY : ((sy + b : ℕ) : ℝ) - (sy : ℝ) = (b : ℝ) := by push_cast; ring
    rw [eX, eY]
    have habs1 : |(-(a : ℝ))| = (a : ℝ) := by
      rw [abs_neg]
      exact abs_of_nonneg (Nat.cast_nonneg a)
    have habs2 : |(b : ℝ)| = (b : ℝ) := abs_of_nonneg (Nat.cast_nonneg b)
    rcases le_total a b with hab | hba
    · have hbr := bwd_pass_le W H s mask ((sy + b) * W + tx)
      have hup := fwd_chain_up W H s mask (sy + a) tx (by omega) htx1 (by omega)
        (b - a) (by omega)
      have e1 : sy + a + (b - a) = sy + b := by omega
      rw [e1] at hup
      have hur := fwd_chain_antidiag W H s mask sy hsy1 a tx htx1 (by omega) (by omega)
      have ecast : ((b - a : ℕ) : ℝ) = (b : ℝ) - (a : ℝ) := Nat.cast_sub hab
      rw [ecast] at hup
      have hoct := octile_vals_le a b _ _ habs1 habs2 hab
      linarith
    · have hr := bwd_chain_right W H s mask (sy + b) (by omega) htyH (a - b) tx htx1
        (by omega)
      have hbr := bwd_pass_le W H s mask ((sy + b) * W + (tx + (a - b)))
      have hur := fwd_chain_antidiag W H s mask sy hsy1 b (tx + (a - b)) (by omega)
        (by omega) (by omega)
      have e1 : tx + (a - b) + b = tx + a := by omega
      rw [e1] at hur
      have ecast : ((a - b : ℕ) : ℝ) = (a : ℝ) - (b : ℝ) := Nat.cast_sub hba
      rw [ecast] at hr
      have hoct := octile_vals_ge a b _ _ habs1 habs2 hba
      linarith
  · -- seed down-right of target
    obtain ⟨a, rfl⟩ := Nat.exists_eq_add_of_le hx
    obtain ⟨b, rfl⟩ := Nat.exists_eq_add_of_le hy
    have eX : ((tx : ℕ) : ℝ) - ((tx + a : ℕ) : ℝ) = -(a : ℝ) := by push_cast; ring
    have eY : ((ty : ℕ) : ℝ) - ((ty + b : ℕ) : ℝ) = -(b : ℝ) := by push_cast; ring
    rw [eX, eY]
    have habs1 : |(-(a : ℝ))| = (a : ℝ) := by
      rw [abs_neg]
      exact abs_of_nonneg (Nat.cast_nonneg a)
    have habs2 : |(-(b : ℝ))| = (b : ℝ) := by
      rw [abs_neg]
      exact abs_of_nonneg (Nat.cast_nonneg b)
    rcases le_total a b with hab | hba
    · have hdr := bwd_chain_diag W H s mask a ty tx hty1 htx1 (by omega) (by omega)
      have hdown := bwd_chain_down W H s mask (tx + a) (by omega) hsxW (b - a) (ty + a)
        (by omega) (by omega)
      have e1 : ty + a + (b - a) = ty + b := by omega
      rw [e1] at hdown
      have hbr := bwd_pass_le W H s mask ((ty + b) * W + (tx + a))
      have ecast : ((b - a : ℕ) : ℝ) = (b : ℝ) - (a : ℝ) := Nat.cast_sub hab
      rw [ecast] at hdown
      have hoct := octile_vals_le a b _ _ habs1 habs2 hab
      linarith
    · have hdr := bwd_chain_diag W H s mask b ty tx hty1 htx1 (by omega) (by omega)
      have hright := bwd_chain_right W H s mask (ty + b) (by omega) hsyH (a - b)
        (tx + b) (by omega) (by omega)
      have e1 : tx + b + (a - b) = tx + a := by omega
      rw [e1] at hright
      have hbr := bwd_pass_le W H s mask ((ty + b) * W + (tx + a))
      have ecast : ((a - b : ℕ) : ℝ) = (a : ℝ) - (b : ℝ) := Nat.cast_sub hba
      rw [ecast] at hright
      have hoct := octile_vals_ge a b _ _ habs1 habs2 hba
      linarith

/-- C2: for a mask with a single seed pixel away from the canvas border,
after the forward and backward chamfer passes the computed distance at any
offset `(dx, dy) = (tx - sx, ty - sy)` from the seed — offset pixel in the
interior, chamfer value below the initialization sentinel `strokePx * 2` —
equals `min(|dx|,|dy|) * sqrt 2 + (max(|dx|,|dy|) - min(|dx|,|dy|))`. -/
theorem chamfer_single_seed_distance (W H : ℕ) (s : ℚ) (sx sy tx ty : ℕ)
    (hsx1 : 1 ≤ sx) (hsxW : sx + 1 < W) (hsy1 : 1 ≤ sy) (hsyH : sy + 1 < H)
    (htx1 : 1 ≤ tx) (htxW : tx + 1 < W) (hty1 : 1 ≤ ty) (htyH : ty + 1 < H)
    (hsent : min |(tx : ℝ) - (sx : ℝ)| |(ty : ℝ) - (sy : ℝ)| * Real.sqrt 2 +
        (max |(tx : ℝ) - (sx : ℝ)| |(ty : ℝ) - (sy : ℝ)| -
          min |(tx : ℝ) - (sx : ℝ)| |(ty : ℝ) - (sy : ℝ)|) < (s : ℝ) * 2) :
    r2valQ (dfGet (chamferDistanceField W H s (fun k => k == sy * W + sx))
        (ty * W + tx)) =
      min |(tx : ℝ) - (sx : ℝ)| |(ty : ℝ) - (sy : ℝ)| * Real.sqrt 2 +
        (max |(tx : ℝ) - (sx : ℝ)| |(ty : ℝ) - (sy : ℝ)| -
          min |(tx : ℝ) - (sx : ℝ)| |(ty : ℝ) - (sy : ℝ)|) := by
  rw [← octile_formula] at hsent ⊢
  have hub := chamfer_ub W H s (fun k => k == sy * W + sx) sx sy tx ty
    hsx1 hsxW hsy1 hsyH htx1 htxW hty1 htyH
  have hseed := fwdPass_seed_le_zero W H sx sy s hsx1 hsxW hsy1 hsyH
  have hlb := chamfer_lb W H sx sy s (by omega) (ty * W + tx)
    (key_lt_size W H ty tx (by omega) (by omega))
  rw [idx_mod W ty tx (by omega), idx_div W ty tx (by omega),
    min_eq_left (le_of_lt hsent)] at hlb
  simp only [dfVal] at hub hseed hlb
  exact le_antisymm (by linarith) hlb

/-- Witness for C2 on an 11×11 canvas: seed `(5, 5)`, `strokePx = 16`,
offset `(dx, dy) = (3, -2)`; the computed distance is `2·√2 + 1`. -/
theorem chamfer_single_seed_distance_witness :
    r2valQ (dfGet (chamferDistanceField 11 11 16 (fun k => k == 5 * 11 + 5))
        (3 * 11 + 8)) = 2 * Real.sqrt 2 + 1 := by
  have h35 : |((8 : ℕ) : ℝ) - ((5 : ℕ) : ℝ)| = 3 := by norm_num
  have h25 : |((3 : ℕ) : ℝ) - ((5 : ℕ) : ℝ)| = 2 := by norm_num
  have h := chamfer_single_seed_distance 11 11 16 5 5 8 3 (by norm_num) (by norm_num)
    (by norm_num) (by norm_num) (by norm_num) (by norm_num) (by norm_num) (by norm_num)
    (by
      rw [h35, h25, min_eq_right (by norm_num : (2 : ℝ) ≤ 3),
        max_eq_left (by norm_num : (2 : ℝ) ≤ 3)]
      push_cast
      linarith [sqrt2_le_two])
  rw [h35, h25, min_eq_right (by norm_num : (2 : ℝ) ≤ 3),
    max_eq_left (by norm_num : (2 : ℝ) ≤ 3)] at h
  rw [h]
  norm_num
